import Mathlib

/-! Singleton key-value store, its accessor strategies, and the counter demonstrations.

A verification development for `cmd/singleton` of the `patterns` repository.

* `singleton` / `Set` / `Get` / `Delete` / `Size` embed the methods of
  `cmd/singleton/singleton_example.go` (lines 72-110) as state-passing functions.
* Go's builtin `map[string]string` is modelled by an association list with
  pairwise distinct keys (`GoMap`); a `nil` map is `none`.
* `Registry` holds the package-level variables (`instance`, `once`, `atomicinz`) and the
  objects constructed so far; `GetInstance_example_1` .. `GetInstance_example_4` embed the
  accessors (lines 22-69) for sequential callers.
* `World`, `Pc.fire`, `step` and `runSchedule` give the accessors an interleaving semantics
  for concurrent callers; `solo_run_eq_call` relates it to the sequential embedding.
* The four counters of `cmd/go_routines/main.go`: `exemploSequencial` is a fold over the loop
  ranges on Go's wrapping `int` (`wrapInt`); `raceStep`/`raceRun` interleave the reads and
  writes of `exemploRaceCondition`; `chanStep`/`chanRun` interleave the moves of
  `exemploChannels`; `shardStep`/`shardRun` interleave the workers, the buffered channel and
  the aggregation loop of `exemploConcorrenciaInteligente`.
-/

namespace Patterns

/-! ## The store -/

/-- Go's builtin `map[string]string` once allocated: finitely many entries, keys unique. -/
abbrev GoMap := AList (fun _ : String => String)

/-- The struct `singleton` of `singleton_example.go` (line 8). The field `data` is a Go map,
which may be `nil` (`none`). The `mutex` field carries no data: each method acquires it on
entry and releases it on return, so it is free before and after every sequential call. -/
structure singleton where
  data : Option GoMap
  deriving DecidableEq

/-- The allocation `make(map[string]string)`. -/
def makeMap : GoMap := ∅

/-- Go's two-result map index expression `value, exists := m[key]`: the zero value `""`
and `false` when the key is absent. -/
def mapIndex (m : GoMap) (key : String) : String × Bool :=
  match m.lookup key with
  | some value => (value, true)
  | none => ("", false)

/-- Method `Set` (lines 72-80): allocate the map when it is `nil`, then `s.data[key] = value`. -/
def singleton.Set (s : singleton) (key value : String) : singleton :=
  let s1 : singleton :=
    match s.data with
    | none => { data := some makeMap }
    | some _ => s
  match s1.data with
  | some m => { data := some (m.insert key value) }
  | none => s1

/-- Method `Get` (lines 82-91). -/
def singleton.Get (s : singleton) (key : String) : String × Bool :=
  match s.data with
  | none => ("", false)
  | some m => mapIndex m key

/-- Method `Delete` (lines 93-100): `delete(s.data, key)` only when the map is not `nil`. -/
def singleton.Delete (s : singleton) (key : String) : singleton :=
  match s.data with
  | some m => { data := some (m.erase key) }
  | none => s

/-- Method `Size` (lines 102-110): `0` for a `nil` map, `len(s.data)` otherwise. -/
def singleton.Size (s : singleton) : Int :=
  match s.data with
  | none => 0
  | some m => (m.entries.length : Int)

/-- The zero-value store: its map is `nil`. -/
def unallocated : singleton := { data := none }

/-- The composite literal `singleton{data: make(map[string]string)}` built by the accessors. -/
def newSingleton : singleton := { data := some makeMap }

/-! ## Sequences of calls on one store -/

/-- One call on the store, as issued by the driver `main.go`. -/
inductive Op where
  | set (key value : String)
  | get (key : String)
  | delete (key : String)
  | size
  deriving DecidableEq

/-- What a call hands back to its caller: `Set` and `Delete` return nothing. -/
inductive Result where
  | done
  | got (value : String) (found : Bool)
  | sized (n : Int)
  deriving DecidableEq

/-- The store after the call. -/
def Op.next (s : singleton) : Op → singleton
  | .set key value => s.Set key value
  | .get _ => s
  | .delete key => s.Delete key
  | .size => s

/-- The value the call returns on store `s`. -/
def Op.result (s : singleton) : Op → Result
  | .set _ _ => .done
  | .get key => .got (s.Get key).1 (s.Get key).2
  | .delete _ => .done
  | .size => .sized s.Size

/-- The store after a sequence of calls, left to right. -/
def exec (s : singleton) (ops : List Op) : singleton :=
  ops.foldl Op.next s

/-- The results of a sequence of calls, in call order. -/
def results : singleton → List Op → List Result
  | _, [] => []
  | s, op :: rest => op.result s :: results (op.next s) rest

/-- Whether the call writes or removes key `k`. -/
def Op.mutates (k : String) : Op → Bool
  | .set key _ => key == k
  | .delete key => key == k
  | _ => false

/-- The key a `Set` call names. -/
def Op.setKey : Op → Option String
  | .set key _ => some key
  | _ => none

/-- Specification side of the size claim: the most recent `Set`/`Delete` naming `k` in the
sequence exists and is a `Set`. -/
def lastIsSet (ops : List Op) (k : String) : Bool :=
  match (ops.filter (Op.mutates k)).getLast? with
  | some (.set _ _) => true
  | _ => false

/-- Specification side of the size claim: the distinct keys that were `Set` and whose most
recent `Set`/`Delete` is a `Set`. -/
def liveKeys (ops : List Op) : List String :=
  ((ops.filterMap Op.setKey).dedup).filter (lastIsSet ops)

/-! ## The registry: package-level variables and the four accessors -/

/-- The package-level variables of `singleton_example.go` (lines 13-19) together with the
objects constructed so far. `heap` lists every object built by a composite literal
`&singleton{...}`, in construction order; the address of an object is its position, so two
pointers are equal exactly when they denote the same construction. `instance_` is
`var instance *singleton` (`none` is `nil`), `once` records whether `sync.Once.Do` has already
run its function, `atomicinz` is the `uint64` flag. The mutex `lock` is acquired and released
(by `defer`) inside a call, so it is free between sequential calls and carries no state here.
The type `σ` of stored objects is the struct `singleton` in `singleton_example.go` and the
map type `singleton` in `singleton_example_1.go`. -/
structure Registry (σ : Type) where
  heap : List σ
  instance_ : Option Nat
  once : Bool
  atomicinz : Nat
  deriving DecidableEq

/-- The state at program start: `instance` is `nil`, `once` unused, `atomicinz` is `0`. -/
def Registry.initial {σ : Type} : Registry σ :=
  { heap := [], instance_ := none, once := false, atomicinz := 0 }

/-- The assignment `instance = &singleton{...}`: a new object `mk` is allocated and its
address stored in `instance`. -/
def Registry.construct {σ : Type} (mk : σ) (r : Registry σ) : Registry σ :=
  { r with heap := r.heap ++ [mk], instance_ := some r.heap.length }

/-- Accessor `GetInstance_example_1` (lines 22-29): construct when `instance == nil`. -/
def GetInstance_example_1 {σ : Type} (mk : σ) (r : Registry σ) : Option Nat × Registry σ :=
  let r1 := if r.instance_ = none then r.construct mk else r
  (r1.instance_, r1)

/-- Accessor `GetInstance_example_2` (lines 32-41): the same test under `lock`. -/
def GetInstance_example_2 {σ : Type} (mk : σ) (r : Registry σ) : Option Nat × Registry σ :=
  let r1 := if r.instance_ = none then r.construct mk else r
  (r1.instance_, r1)

/-- Accessor `GetInstance_example_3` (lines 45-52): `once.Do` runs the constructing function
when `once` has not been used, without looking at `instance`. -/
def GetInstance_example_3 {σ : Type} (mk : σ) (r : Registry σ) : Option Nat × Registry σ :=
  let r1 := if r.once = false then { r.construct mk with once := true } else r
  (r1.instance_, r1)

/-- Accessor `GetInstance_example_4` (lines 54-69): return at once when the flag is `1`;
otherwise, under `lock`, construct and store `1` when the flag is `0`. -/
def GetInstance_example_4 {σ : Type} (mk : σ) (r : Registry σ) : Option Nat × Registry σ :=
  if r.atomicinz = 1 then (r.instance_, r)
  else
    let r1 := if r.atomicinz = 0 then { r.construct mk with atomicinz := 1 } else r
    (r1.instance_, r1)

/-- The composite literal `&singleton{}` of the map-typed variant `singleton_example_1.go`:
an empty, allocated map. -/
def newMapTyped : GoMap := makeMap

/-- Which accessor a caller uses. -/
inductive Strategy where
  | example_1
  | example_2
  | example_3
  | example_4
  deriving DecidableEq

/-- One accessor call. -/
def Strategy.call {σ : Type} (mk : σ) (r : Registry σ) : Strategy → Option Nat × Registry σ
  | .example_1 => GetInstance_example_1 mk r
  | .example_2 => GetInstance_example_2 mk r
  | .example_3 => GetInstance_example_3 mk r
  | .example_4 => GetInstance_example_4 mk r

/-- A sequence of accessor calls, one after the other: the pointers returned, in call order,
and the final registry. -/
def runCalls {σ : Type} (mk : σ) : Registry σ → List Strategy → List (Option Nat) × Registry σ
  | r, [] => ([], r)
  | r, c :: rest =>
    let out := c.call mk r
    let tail := runCalls mk out.2 rest
    (out.1 :: tail.1, tail.2)

/-- Method call `p.Set(key, value)` through a pointer: `none` is the nil-dereference panic. -/
def setAt (r : Registry singleton) (p : Option Nat) (key value : String) :
    Option (Registry singleton) :=
  match p with
  | none => none
  | some a =>
    match r.heap[a]? with
    | none => none
    | some s => some { r with heap := r.heap.set a (s.Set key value) }

/-- Method call `p.Get(key)` through a pointer: `none` is the nil-dereference panic. -/
def getAt (r : Registry singleton) (p : Option Nat) (key : String) : Option (String × Bool) :=
  match p with
  | none => none
  | some a =>
    match r.heap[a]? with
    | none => none
    | some s => some (s.Get key)

/-- The opening of the driver `main.go` (lines 13-16 and 25): the four accessors are called in
the order 1, 2, 3, 4, then `s3.Set(key, value)`. Returns the four pointers and the registry
after the `Set`. -/
def driverShare (key value : String) : Option (List (Option Nat) × Registry singleton) :=
  let out := runCalls newSingleton Registry.initial
    [.example_1, .example_2, .example_3, .example_4]
  match setAt out.2 (out.1.getD 2 none) key value with
  | none => none
  | some r => some (out.1, r)

/-- Two stores that are equal, or the unallocated store against the fresh one. -/
def sameContents (s t : singleton) : Prop :=
  s = t ∨ (s = unallocated ∧ t = newSingleton)

/-- The registry reached by one call of a strategy from the initial state. -/
def afterFirst {σ : Type} (mk : σ) (c : Strategy) : Registry σ :=
  (c.call mk Registry.initial).2

/-! ## Concurrent callers: interleaving semantics

Each caller is a thread with a program point; one step of a thread performs at most one
access to the shared variables. The accessors 2, 3 and 4 synchronise every access to
`instance` through `lock`, `once` or the atomic flag, so their executions are interleavings of
such steps. -/

/-- Program points of a caller inside an accessor of `singleton_example.go`. The numbers in
the comments are source lines; a point names the statement the thread executes next. -/
inductive Pc where
  /-- Line 23, `if instance == nil`. -/
  | e1_test
  /-- Lines 24-26, `instance = &singleton{...}`. -/
  | e1_build
  /-- Line 28, `return instance`. -/
  | e1_ret
  /-- Line 33, `lock.Lock()`. -/
  | e2_lock
  /-- Line 35, `if instance == nil`. -/
  | e2_test
  /-- Lines 36-38, `instance = &singleton{...}`. -/
  | e2_build
  /-- Line 40, `return instance`: the result is read, the deferred unlock is still due. -/
  | e2_ret
  /-- Line 34, the deferred `lock.Unlock()`, with the result already computed. -/
  | e2_unlock (rv : Option Nat)
  /-- Line 46, entry of `once.Do`. -/
  | e3_do
  /-- Lines 47-49, the function passed to `once.Do`: `instance = &singleton{...}`. -/
  | e3_build
  /-- Line 50, the function has returned and `once.Do` records completion. -/
  | e3_finish
  /-- Line 51, `return instance`. -/
  | e3_ret
  /-- Line 56, `if atomic.LoadUint64(&atomicinz) == 1`. -/
  | e4_fast
  /-- Line 57, `return instance` on the fast path. -/
  | e4_fastRet
  /-- Line 59, `lock.Lock()`. -/
  | e4_lock
  /-- Line 61, `if atomic.LoadUint64(&atomicinz) == 0`. -/
  | e4_recheck
  /-- Lines 62-64, `instance = &singleton{...}`. -/
  | e4_build
  /-- Line 65, `atomic.StoreUint64(&atomicinz, 1)`. -/
  | e4_store
  /-- Line 68, `return instance`: the result is read, the deferred unlock is still due. -/
  | e4_ret
  /-- Line 60, the deferred `lock.Unlock()`, with the result already computed. -/
  | e4_unlock (rv : Option Nat)
  /-- The call has returned `rv`. -/
  | done (rv : Option Nat)
  deriving DecidableEq

/-- The shared variables and the callers. `reg` holds the package-level variables; `reg.once`
is true when `once.Do` has completed, `onceRunning` when a caller is inside the function
passed to `once.Do` (`sync.Once` makes every other caller of `Do` wait until it returns);
`lock` is true when the mutex `lock` is held; `threads` lists the program point of every
caller. -/
structure World (σ : Type) where
  reg : Registry σ
  onceRunning : Bool
  lock : Bool
  threads : List Pc

/-- The first program point of each accessor. -/
def Strategy.entry : Strategy → Pc
  | .example_1 => .e1_test
  | .example_2 => .e2_lock
  | .example_3 => .e3_do
  | .example_4 => .e4_fast

/-- The state in which `n` callers are about to enter accessor `c` and nothing has been
constructed. -/
def World.start {σ : Type} (n : Nat) (c : Strategy) : World σ :=
  { reg := Registry.initial, onceRunning := false, lock := false,
    threads := List.replicate n c.entry }

/-- One step of a thread at program point `pc`: the shared variables after the step and the
thread's next program point; `none` when the thread cannot move (it waits for `lock` or for
`once`, or it has returned). The library primitives follow their documentation:
`lock.Lock()` proceeds only when the mutex is free and `Unlock` frees it; `once.Do(f)` lets
the first caller run `f`, makes callers that arrive while `f` runs wait, and lets callers that
arrive after `f` has returned go on without running it; the atomic load and store act on
`atomicinz` in one step. -/
def Pc.fire {σ : Type} (mk : σ) (w : World σ) : Pc → Option (World σ × Pc)
  | .e1_test => some (w, if w.reg.instance_ = none then .e1_build else .e1_ret)
  | .e1_build => some ({ w with reg := w.reg.construct mk }, .e1_ret)
  | .e1_ret => some (w, .done w.reg.instance_)
  | .e2_lock => if w.lock then none else some ({ w with lock := true }, .e2_test)
  | .e2_test => some (w, if w.reg.instance_ = none then .e2_build else .e2_ret)
  | .e2_build => some ({ w with reg := w.reg.construct mk }, .e2_ret)
  | .e2_ret => some (w, .e2_unlock w.reg.instance_)
  | .e2_unlock rv => some ({ w with lock := false }, .done rv)
  | .e3_do =>
    if w.reg.once then some (w, .e3_ret)
    else if w.onceRunning then none
    else some ({ w with onceRunning := true }, .e3_build)
  | .e3_build => some ({ w with reg := w.reg.construct mk }, .e3_finish)
  | .e3_finish =>
    some ({ w with reg := { w.reg with once := true }, onceRunning := false }, .e3_ret)
  | .e3_ret => some (w, .done w.reg.instance_)
  | .e4_fast => some (w, if w.reg.atomicinz = 1 then .e4_fastRet else .e4_lock)
  | .e4_fastRet => some (w, .done w.reg.instance_)
  | .e4_lock => if w.lock then none else some ({ w with lock := true }, .e4_recheck)
  | .e4_recheck => some (w, if w.reg.atomicinz = 0 then .e4_build else .e4_ret)
  | .e4_build => some ({ w with reg := w.reg.construct mk }, .e4_store)
  | .e4_store => some ({ w with reg := { w.reg with atomicinz := 1 } }, .e4_ret)
  | .e4_ret => some (w, .e4_unlock w.reg.instance_)
  | .e4_unlock rv => some ({ w with lock := false }, .done rv)
  | .done _ => none

/-- Thread `i` takes one step; `none` when there is no such thread or it cannot move. -/
def step {σ : Type} (mk : σ) (w : World σ) (i : Nat) : Option (World σ) :=
  match w.threads[i]? with
  | none => none
  | some pc =>
    match pc.fire mk w with
    | none => none
    | some out => some { out.1 with threads := w.threads.set i out.2 }

/-- An interleaving: the scheduler picks the threads in the listed order; a pick of a thread
that cannot move leaves the state as it is. -/
def runSchedule {σ : Type} (mk : σ) : World σ → List Nat → World σ
  | w, [] => w
  | w, i :: rest =>
    match step mk w i with
    | none => runSchedule mk w rest
    | some w1 => runSchedule mk w1 rest

/-- Whether the call has returned. -/
def Pc.isDone : Pc → Bool
  | .done _ => true
  | _ => false

/-- Every caller has returned. -/
def World.allDone {σ : Type} (w : World σ) : Bool :=
  w.threads.all Pc.isDone

/-- The program points at which a caller holds `lock`. -/
def Pc.inCS : Pc → Bool
  | .e2_test | .e2_build | .e2_ret | .e2_unlock _ => true
  | .e4_recheck | .e4_build | .e4_store | .e4_ret | .e4_unlock _ => true
  | _ => false

/-- The program points inside the function passed to `once.Do`. -/
def Pc.inOnce : Pc → Bool
  | .e3_build | .e3_finish => true
  | _ => false

/-- The largest number of steps a caller at this point can still take. -/
def Pc.rank : Pc → Nat
  | .e1_test => 3 | .e1_build => 2 | .e1_ret => 1
  | .e2_lock => 5 | .e2_test => 4 | .e2_build => 3 | .e2_ret => 2 | .e2_unlock _ => 1
  | .e3_do => 4 | .e3_build => 3 | .e3_finish => 2 | .e3_ret => 1
  | .e4_fast => 7 | .e4_fastRet => 1 | .e4_lock => 6 | .e4_recheck => 5 | .e4_build => 4
  | .e4_store => 3 | .e4_ret => 2 | .e4_unlock _ => 1
  | .done _ => 0

/-- The total number of steps the callers can still take. -/
def World.fuel {σ : Type} (w : World σ) : Nat :=
  (w.threads.map Pc.rank).sum

/-- The program points at which a caller is the only one allowed to write `instance`. -/
def Pc.critical (pc : Pc) : Bool :=
  pc.inCS || pc.inOnce

/-- What holds of the shared variables while a caller of strategy `c` is at a program point.
Callers of `GetInstance_example_1` are not covered. -/
def Good {σ : Type} (c : Strategy) (w : World σ) : Pc → Prop
  | .e1_test => False
  | .e1_build => False
  | .e1_ret => False
  | .e2_lock => c = .example_2
  | .e2_test => c = .example_2 ∧ w.lock = true
  | .e2_build => c = .example_2 ∧ w.lock = true ∧ w.reg.instance_ = none
  | .e2_ret => c = .example_2 ∧ w.lock = true ∧ w.reg.instance_ = some 0
  | .e2_unlock rv =>
    c = .example_2 ∧ w.lock = true ∧ rv = some 0 ∧ w.reg.instance_ = some 0
  | .e3_do =>
    c = .example_3 ∧ (w.reg.once = false → w.onceRunning = false → w.reg.instance_ = none)
  | .e3_build =>
    c = .example_3 ∧ w.onceRunning = true ∧ w.reg.once = false ∧ w.reg.instance_ = none
  | .e3_finish => c = .example_3 ∧ w.onceRunning = true ∧ w.reg.instance_ = some 0
  | .e3_ret => c = .example_3 ∧ w.reg.once = true
  | .e4_fast =>
    c = .example_4 ∧ (w.reg.atomicinz = 0 → w.lock = false → w.reg.instance_ = none)
  | .e4_fastRet => c = .example_4 ∧ w.reg.atomicinz = 1
  | .e4_lock =>
    c = .example_4 ∧ (w.reg.atomicinz = 0 → w.lock = false → w.reg.instance_ = none)
  | .e4_recheck =>
    c = .example_4 ∧ w.lock = true ∧ (w.reg.atomicinz = 0 → w.reg.instance_ = none)
  | .e4_build =>
    c = .example_4 ∧ w.lock = true ∧ w.reg.atomicinz = 0 ∧ w.reg.instance_ = none
  | .e4_store => c = .example_4 ∧ w.lock = true ∧ w.reg.instance_ = some 0
  | .e4_ret => c = .example_4 ∧ w.lock = true ∧ w.reg.atomicinz = 1
  | .e4_unlock rv =>
    c = .example_4 ∧ w.lock = true ∧ rv = some 0 ∧ w.reg.atomicinz = 1
  | .done rv => rv = some 0 ∧ w.reg.instance_ = some 0

/-- What holds of the shared variables alone, whichever of the accessors 2, 3, 4 is used:
nothing is constructed and `instance` is `nil`, or one object is constructed and `instance`
points to it; the flag is `0`, or `1` with `instance` set; a completed `once` has `instance`
set. -/
def GoodShared {σ : Type} (mk : σ) (w : World σ) : Prop :=
  ((w.reg.heap = [] ∧ w.reg.instance_ = none) ∨
    (w.reg.heap = [mk] ∧ w.reg.instance_ = some 0)) ∧
  (w.reg.atomicinz = 0 ∨ (w.reg.atomicinz = 1 ∧ w.reg.instance_ = some 0)) ∧
  (w.reg.once = true → w.reg.instance_ = some 0)

/-- The invariant of a world in which every caller uses the same accessor `c` among 2, 3, 4. -/
structure Inv {σ : Type} (mk : σ) (c : Strategy) (w : World σ) : Prop where
  shared : GoodShared mk w
  good : ∀ (i : Nat) (pc : Pc), w.threads[i]? = some pc → Good c w pc
  excl : ∀ (i j : Nat) (pi pj : Pc), w.threads[i]? = some pi → w.threads[j]? = some pj →
    pi.critical = true → pj.critical = true → i = j
  held : w.lock = true → ∃ (i : Nat) (pc : Pc), w.threads[i]? = some pc ∧ pc.inCS = true
  running : w.onceRunning = true →
    ∃ (i : Nat) (pc : Pc), w.threads[i]? = some pc ∧ pc.inOnce = true

/-- A complete interleaving of two callers of `GetInstance_example_4`: both pass the fast
check before either takes the lock. -/
def sched10 : List Nat := [0, 1, 0, 1, 0, 1, 0, 0, 0, 0, 1, 1, 1, 1, 1]

/-- The world in which a single caller is about to enter accessor `c`, with the package-level
variables `r` and both `lock` and `once` at rest. -/
def World.solo {σ : Type} (r : Registry σ) (c : Strategy) : World σ :=
  { reg := r, onceRunning := false, lock := false, threads := [c.entry] }

/-- The number of objects constructed by the calls of accessor `which` within a sequence of
sequential calls starting in registry `r`. -/
def buildsBy {σ : Type} (mk : σ) (which : Strategy) : Registry σ → List Strategy → Nat
  | _, [] => 0
  | r, c :: rest =>
    (if c = which then (c.call mk r).2.heap.length - r.heap.length else 0)
      + buildsBy mk which (c.call mk r).2 rest

/-- What sequential accessor calls keep true from the initial registry on: a used `once` and
a non-zero flag both come with a non-nil `instance`, the flag is `0` or `1`, `instance` points
into the heap, and every object on the heap is the constructed literal `mk`. -/
def SeqInv {σ : Type} (mk : σ) (r : Registry σ) : Prop :=
  (r.once = true → r.instance_ ≠ none) ∧
  (r.atomicinz ≠ 0 → r.instance_ ≠ none) ∧
  r.atomicinz ≤ 1 ∧
  (∀ a, r.instance_ = some a → a < r.heap.length) ∧
  (∀ s ∈ r.heap, s = mk)

/-- An interleaving of two callers of `GetInstance_example_1`: both test `instance == nil`
before either assigns, then the first caller assigns and returns, then the second. -/
def sched15 : List Nat := [0, 1, 0, 0, 1, 1]

/-! ## The counter demonstrations (`cmd/go_routines/main.go`) -/

/-- Arithmetic on Go's `int`, which has `bits` bits (32 or 64, by platform): the mathematical
result `x` is reduced to the two's-complement range. -/
def wrapInt (bits : Nat) (x : Int) : Int :=
  (x + 2 ^ (bits - 1)) % 2 ^ bits - 2 ^ (bits - 1)

/-- The inner loop of `exemploSequencial` (lines 48-54): `n` iterations, each executing
`counter++`. The index `i` runs over `0 .. n-1`; the statement `_ = i * 10` discards its
value. -/
def sequencialInner (bits n : Nat) (counter : Int) : Int :=
  (List.range n).foldl (fun c _ => wrapInt bits (c + 1)) counter

/-- The nested loops of `exemploSequencial` (lines 42-55) with `workers` rounds of `n`
increments: `counter := 0`, then for `worker := 1 .. workers` the inner loop. -/
def sequencialLoops (bits workers n : Nat) : Int :=
  (List.range' 1 workers).foldl (fun c _ => sequencialInner bits n c) 0

/-- The counter printed by `exemploSequencial`: 5 rounds of 10,000,000 increments. -/
def exemploSequencial (bits : Nat) : Int :=
  sequencialLoops bits 5 10000000

/-- Program points of a worker goroutine of `exemploConcorrenciaInteligente` (lines 173-189).
The worker's variables are its own: the loop variable `j` and `localCounter`. -/
inductive ShardPc where
  /-- Line 180, about to test `j <= 10000000`, with the current `j` and `localCounter`. -/
  | counting (j : Nat) (localCounter : Int)
  /-- Line 188, `resultsCh <- localCounter`. -/
  | sendResult (localCounter : Int)
  /-- The goroutine has returned and its deferred `wg.Done()` has run. -/
  | finished
  deriving DecidableEq

/-- Program points of the function body after the goroutines are created. -/
inductive ShardMain where
  /-- Line 193, `wg.Wait()`, followed by `close(resultsCh)` (line 194). -/
  | waiting
  /-- Lines 201-205, the loop `for result := range resultsCh`. -/
  | ranging
  /-- The loop has ended; `totalSum` is printed (line 208). -/
  | finishedLoop
  deriving DecidableEq

/-- The state of `exemploConcorrenciaInteligente`: the workers, the values buffered in
`resultsCh` (oldest first), whether the channel is closed, the program point of the function
body, and its variables `totalSum` and `resultsReceived`. -/
structure ShardWorld where
  workers : List ShardPc
  channel : List Int
  closed : Bool
  main : ShardMain
  totalSum : Int
  resultsReceived : Int
  deriving DecidableEq

/-- The moves of `exemploConcorrenciaInteligente`. -/
inductive ShardAct where
  /-- Worker `i` takes one step. -/
  | worker (i : Nat)
  /-- The function body passes `wg.Wait()` and executes `close(resultsCh)`. -/
  | closeCh
  /-- The `range` loop takes the oldest value from the channel (lines 201-203). -/
  | receive
  /-- The `range` loop ends on the closed, empty channel. -/
  | endRange
  deriving DecidableEq

/-- The state after line 190: `workers` goroutines, each with `localCounter := 0` and about to
start its loop at `j := 1`; the channel is empty and open; `totalSum` and `resultsReceived`
are the values they are initialised to at lines 197-198 (no worker touches them). -/
def shardStart (workers : Nat) : ShardWorld :=
  { workers := List.replicate workers (.counting 1 0), channel := [], closed := false,
    main := .waiting, totalSum := 0, resultsReceived := 0 }

/-- One step of a worker: the new program point and the new channel contents; `none` when the
worker cannot move. In the loop (lines 180-183), `localCounter = j` and `j++` while `j <= n`
(the statement `_ = j * 10000` discards its value). The send at line 188 on the channel of
capacity `cap` proceeds only while the buffer has room; a send on a closed channel would
panic, and `closed` excludes it here (the invariant shows that every worker has finished
once the channel is closed). -/
def ShardPc.fire (cap n : Nat) (w : ShardWorld) : ShardPc → Option (ShardPc × List Int)
  | .counting j localCounter =>
    if j ≤ n then some (.counting (j + 1) (j : Int), w.channel)
    else some (.sendResult localCounter, w.channel)
  | .sendResult localCounter =>
    if w.channel.length < cap ∧ w.closed = false then
      some (.finished, w.channel ++ [localCounter])
    else none
  | .finished => none

/-- Whether the worker has returned. -/
def ShardPc.isFinished : ShardPc → Bool
  | .finished => true
  | _ => false

/-- One move; `none` when the move is not possible in `w`. `wg.Wait()` returns only when every
worker has returned; the `range` loop adds each received value to `totalSum`, counts it in
`resultsReceived`, and ends when the channel is closed and empty. -/
def shardStep (bits cap n : Nat) (w : ShardWorld) : ShardAct → Option ShardWorld
  | .worker i =>
    match w.workers[i]? with
    | none => none
    | some pc =>
      match pc.fire cap n w with
      | none => none
      | some out => some { w with workers := w.workers.set i out.1, channel := out.2 }
  | .closeCh =>
    if w.main = .waiting ∧ w.workers.all ShardPc.isFinished = true then
      some { w with closed := true, main := .ranging }
    else none
  | .receive =>
    if w.main = .ranging then
      match w.channel with
      | [] => none
      | result :: rest =>
        some { w with channel := rest, totalSum := wrapInt bits (w.totalSum + result),
                      resultsReceived := wrapInt bits (w.resultsReceived + 1) }
    else none
  | .endRange =>
    if w.main = .ranging ∧ w.channel = [] ∧ w.closed = true then
      some { w with main := .finishedLoop }
    else none

/-- An interleaving: the moves are attempted in the listed order; a move that is not possible
leaves the state as it is. -/
def shardRun (bits cap n : Nat) : ShardWorld → List ShardAct → ShardWorld
  | w, [] => w
  | w, a :: rest =>
    match shardStep bits cap n w a with
    | none => shardRun bits cap n w rest
    | some w1 => shardRun bits cap n w1 rest

/-- The function `exemploConcorrenciaInteligente` under the interleaving `sched`: 5 workers
counting to 10,000,000 and a channel `make(chan int, 5)`. -/
def exemploConcorrenciaInteligente (bits : Nat) (sched : List ShardAct) : ShardWorld :=
  shardRun bits 5 10000000 (shardStart 5) sched

/-- The number of workers that have returned: 1 for a finished worker. -/
def ShardPc.doneFlag : ShardPc → Nat
  | .finished => 1
  | _ => 0

/-- The number of workers that have returned. -/
def ShardWorld.doneCount (w : ShardWorld) : Nat :=
  (w.workers.map ShardPc.doneFlag).sum

/-- The number of steps a worker counting to `n` can still take. -/
def ShardPc.rank (n : Nat) : ShardPc → Nat
  | .counting j _ => (n + 1 - j) + 3
  | .sendResult _ => 2
  | .finished => 0

/-- The number of moves still possible. -/
def ShardWorld.fuel (n : Nat) (w : ShardWorld) : Nat :=
  (w.workers.map (ShardPc.rank n)).sum + w.channel.length +
    (match w.main with
      | .waiting => 2
      | .ranging => 1
      | .finishedLoop => 0)

/-- What holds of a worker counting to `n` at each program point: in the loop `localCounter`
is `j - 1`; at the send it is `n`. -/
def ShardPc.ok (n : Nat) : ShardPc → Prop
  | .counting j localCounter => 1 ≤ j ∧ j ≤ n + 1 ∧ localCounter = (j : Int) - 1
  | .sendResult localCounter => localCounter = (n : Int)
  | .finished => True

/-- What every interleaving of `workers` workers counting to `n` keeps true: every worker is
at a justified point; every buffered value is `n`; the values buffered plus the values
received are as many as the workers that have returned; `totalSum` is `n` per received value;
the channel is closed only when every worker has returned; the loop runs only on a closed
channel and ends only on an empty one. -/
def ShardInv (workers n : Nat) (w : ShardWorld) : Prop :=
  w.workers.length = workers ∧
  (∀ pc ∈ w.workers, pc.ok n) ∧
  (∀ v ∈ w.channel, v = (n : Int)) ∧
  0 ≤ w.resultsReceived ∧
  (w.channel.length : Int) + w.resultsReceived = w.doneCount ∧
  w.totalSum = w.resultsReceived * n ∧
  (w.closed = true → w.doneCount = workers) ∧
  (w.main ≠ .waiting → w.closed = true) ∧
  (w.main = .finishedLoop → w.channel = [])

/-- A worker goroutine of `exemploRaceCondition` (lines 74-88): `todo` is the number of loop
iterations it has not completed yet, `temp` holds the value read at line 80 while the write of
line 81 is still due. -/
structure RaceWorker where
  todo : Nat
  temp : Option Int
  deriving DecidableEq

/-- The shared `counter` of `exemploRaceCondition` and its workers. -/
structure RaceWorld where
  counter : Int
  workers : List RaceWorker
  deriving DecidableEq

/-- The state after line 89: `counter` is 0 and each of `workers` goroutines has `n`
iterations to run. -/
def raceStart (workers n : Nat) : RaceWorld :=
  { counter := 0, workers := List.replicate workers { todo := n, temp := none } }

/-- One step of a worker, given the current `counter`: the read `temp := counter` (line 80),
or the write `counter = temp + 1` (line 81) followed by `j++`. Returns the counter after the
step and the worker's new state; `none` when its loop has finished. -/
def RaceWorker.fire (bits : Nat) (counter : Int) (wk : RaceWorker) : Option (Int × RaceWorker) :=
  if wk.todo = 0 then none
  else
    match wk.temp with
    | none => some (counter, { wk with temp := some counter })
    | some t => some (wrapInt bits (t + 1), { todo := wk.todo - 1, temp := none })

/-- Worker `i` takes one step; `none` when there is no such worker or it has finished. -/
def raceStep (bits : Nat) (w : RaceWorld) (i : Nat) : Option RaceWorld :=
  match w.workers[i]? with
  | none => none
  | some wk =>
    match wk.fire bits w.counter with
    | none => none
    | some out => some { counter := out.1, workers := w.workers.set i out.2 }

/-- An interleaving of the workers' reads and writes: the scheduler picks the workers in the
listed order; a pick of a finished worker leaves the state as it is. -/
def raceRun (bits : Nat) : RaceWorld → List Nat → RaceWorld
  | w, [] => w
  | w, i :: rest =>
    match raceStep bits w i with
    | none => raceRun bits w rest
    | some w1 => raceRun bits w1 rest

/-- Every worker has finished its loop, so `wg.Wait()` (line 91) returns. -/
def RaceWorld.finished (w : RaceWorld) : Bool :=
  w.workers.all (fun wk => wk.todo == 0)

/-- The number of loop iterations not yet completed, over all workers. -/
def RaceWorld.todoSum (w : RaceWorld) : Nat :=
  (w.workers.map RaceWorker.todo).sum

/-- The number of steps a worker can still take. -/
def RaceWorker.rank (wk : RaceWorker) : Nat :=
  2 * wk.todo - (if wk.temp.isSome then 1 else 0)

/-- The number of steps the workers can still take. -/
def RaceWorld.fuel (w : RaceWorld) : Nat :=
  (w.workers.map RaceWorker.rank).sum

/-- The lost-increment count printed at line 95, `50000000-counter`. -/
def lostIncrements (bits : Nat) (counter : Int) : Int :=
  wrapInt bits (50000000 - counter)

/-- What every interleaving of the racy counter keeps true, `total` being the number of
increments requested: the counter and every value a worker has read are non-negative and, with
the iterations still to run added, do not exceed `total`. -/
def RaceInv (total : Int) (w : RaceWorld) : Prop :=
  0 ≤ w.counter ∧ w.counter + w.todoSum ≤ total ∧
  ∀ wk ∈ w.workers, ∀ t, wk.temp = some t → 0 ≤ t ∧ t + w.todoSum ≤ total

/-- Program points of the counting goroutine of `exemploChannels` (lines 115-120). -/
inductive AccPc where
  /-- Line 116, waiting in `for range incrementCh`. -/
  | recv
  /-- Line 117, `counter++` for the signal just received. -/
  | incr
  /-- Line 119, `doneCh <- counter`. -/
  | report
  /-- The goroutine has returned. -/
  | exited
  deriving DecidableEq

/-- The state of `exemploChannels`: for every worker the number of sends it still has to make,
whether `incrementCh` is closed, the counting goroutine's program point, `counter`, and the
value `finalResult` main has received from `doneCh`, if any. -/
structure ChanWorld where
  senders : List Nat
  closed : Bool
  acc : AccPc
  counter : Int
  finalResult : Option Int
  deriving DecidableEq

/-- The moves of `exemploChannels`. Both channels are unbuffered, so a send and its receive
are one joint move. -/
inductive ChanAct where
  /-- Worker `i` sends at line 136 and the counting goroutine receives at line 116. -/
  | send (i : Nat)
  /-- The counting goroutine executes `counter++` (line 117). -/
  | accumulate
  /-- Main passes `wg.Wait()` (line 145) and executes `close(incrementCh)` (line 146). -/
  | closeCh
  /-- The `range` loop of the counting goroutine ends on the closed channel. -/
  | endRange
  /-- The counting goroutine sends `counter` on `doneCh` (line 119) and main receives it
  (line 149). -/
  | deliver
  deriving DecidableEq

/-- The state once all goroutines are created: `workers` workers with `n` sends each. -/
def chanStart (workers n : Nat) : ChanWorld :=
  { senders := List.replicate workers n, closed := false, acc := .recv, counter := 0,
    finalResult := none }

/-- One move; `none` when the move is not possible in `w`. A worker can send only while the
counting goroutine waits at line 116; main closes the channel only after every worker has
finished (a send on a closed channel would panic, and `closed` excludes it here; the invariant
shows that no worker has a send left once the channel is closed); main receives the result
only after the close. -/
def chanStep (bits : Nat) (w : ChanWorld) : ChanAct → Option ChanWorld
  | .send i =>
    match w.senders[i]? with
    | none => none
    | some k =>
      if k ≠ 0 ∧ w.acc = .recv ∧ w.closed = false then
        some { w with senders := w.senders.set i (k - 1), acc := .incr }
      else none
  | .accumulate =>
    if w.acc = .incr then
      some { w with counter := wrapInt bits (w.counter + 1), acc := .recv }
    else none
  | .closeCh =>
    if w.senders.all (fun k => k == 0) = true ∧ w.closed = false then
      some { w with closed := true }
    else none
  | .endRange =>
    if w.acc = .recv ∧ w.closed = true then some { w with acc := .report } else none
  | .deliver =>
    if w.acc = .report ∧ w.closed = true then
      some { w with acc := .exited, finalResult := some w.counter }
    else none

/-- An interleaving: the moves are attempted in the listed order; a move that is not possible
leaves the state as it is. -/
def chanRun (bits : Nat) : ChanWorld → List ChanAct → ChanWorld
  | w, [] => w
  | w, a :: rest =>
    match chanStep bits w a with
    | none => chanRun bits w rest
    | some w1 => chanRun bits w1 rest

/-- The number of sends the workers still have to make. -/
def ChanWorld.todoSum (w : ChanWorld) : Nat :=
  w.senders.sum

/-- The signals received and not yet counted: one while the counting goroutine is at
line 117. -/
def ChanWorld.pending (w : ChanWorld) : Int :=
  if w.acc = .incr then 1 else 0

/-- The number of moves still possible. -/
def ChanWorld.fuel (w : ChanWorld) : Nat :=
  2 * w.todoSum + (if w.closed = true then 0 else 1) +
    (match w.acc with
      | .recv => 2
      | .incr => 3
      | .report => 1
      | .exited => 0)

/-- What every interleaving of `exemploChannels` keeps true, `total` being the number of
signals the workers send in all: the counter is the number of signals sent so far less the one
being counted; a closed channel means no send is left; the counting goroutine leaves its loop
only on a closed channel; `finalResult` is set exactly when the counting goroutine has
delivered `counter`. -/
def ChanInv (total : Int) (w : ChanWorld) : Prop :=
  0 ≤ w.counter ∧
  w.counter + w.pending + w.todoSum = total ∧
  (w.closed = true → w.todoSum = 0) ∧
  (w.acc = .report ∨ w.acc = .exited → w.closed = true) ∧
  w.finalResult = (if w.acc = .exited then some w.counter else none)

/-! ## Basic facts about the map model -/

theorem mapIndex_insert_self (m : GoMap) (k v : String) :
    mapIndex (m.insert k v) k = (v, true) := by
  simp [mapIndex, AList.lookup_insert]

theorem mapIndex_erase_self (m : GoMap) (k : String) :
    mapIndex (m.erase k) k = ("", false) := by
  simp [mapIndex, AList.lookup_erase]

theorem erase_of_not_mem (m : GoMap) (k : String) (h : k ∉ m) : m.erase k = m := by
  apply AList.ext
  rw [AList.mem_keys] at h
  simpa [AList.erase] using List.kerase_of_not_mem_keys h

/-! ## Claims about the store -/

/-- C1: for every store state (map unallocated, empty, or already holding another value under
`k`), `Get(k)` after `Set(k, v)` returns `(v, true)`; a second `Set` on the same key overwrites
the first value. -/
theorem C1_get_after_set (s : singleton) (k v w : String) :
    (s.Set k v).Get k = (v, true) ∧ ((s.Set k w).Set k v).Get k = (v, true) := by
  have h : ∀ t : singleton, (t.Set k v).Get k = (v, true) := by
    intro t
    rcases t with ⟨_ | m⟩ <;>
      simp [singleton.Set, singleton.Get, mapIndex_insert_self]
  exact ⟨h s, h _⟩

/-- C3: for every store state and key `k`, `Get(k)` after `Delete(k)` returns `("", false)`,
whether or not `k` was present and whether or not the map was allocated. -/
theorem C3_get_after_delete (s : singleton) (k : String) :
    (s.Delete k).Get k = ("", false) := by
  rcases s with ⟨_ | m⟩ <;>
    simp [singleton.Delete, singleton.Get, mapIndex_erase_self]

/-- C4: `Get(k)` returns `("", false)` exactly when the map is unallocated or `k` is not in
the map, and returns `(stored value, true)` when `k` is in the map; the value reported on
absence is always the empty string. `Get` is a total function, so it never fails. -/
theorem C4_get_absent_iff (s : singleton) (k : String) :
    (s.Get k = ("", false) ↔ (s.data = none ∨ ∃ m, s.data = some m ∧ k ∉ m)) ∧
    (∀ m v, s.data = some m → m.lookup k = some v → s.Get k = (v, true)) ∧
    ((s.Get k).2 = false → (s.Get k).1 = "") ∧
    ((s.Get k).2 = true ↔ ∃ m, s.data = some m ∧ k ∈ m) := by
  rcases s with ⟨_ | m⟩
  · simp [singleton.Get]
  · cases hl : m.lookup k with
    | none =>
      have hk : k ∉ m := AList.lookup_eq_none.mp hl
      simp [singleton.Get, mapIndex, hl, hk]
      rintro m2 v rfl
      simp [hl]
    | some v =>
      have hk : k ∈ m := by
        rw [← AList.lookup_isSome, hl]; rfl
      simp [singleton.Get, mapIndex, hl, hk]
      rintro m2 v2 rfl h2
      rw [hl] at h2
      exact (Option.some.inj h2)

/-- C5: `Delete(k)` is a no-op when the map is unallocated or `k` is absent: the store after
the call is identical to the store before, so an unallocated map stays unallocated, `Size` is
unchanged and `Get` of every key is unchanged. `Delete` returns no error value at all. -/
theorem C5_delete_absent_noop (s : singleton) (k : String)
    (h : s.data = none ∨ ∃ m, s.data = some m ∧ k ∉ m) :
    s.Delete k = s ∧ ((s.Delete k).data = none ↔ s.data = none) ∧
    (s.Delete k).Size = s.Size ∧ ∀ k2, (s.Delete k).Get k2 = s.Get k2 := by
  have hs : s.Delete k = s := by
    rcases s with ⟨_ | m⟩
    · rfl
    · rcases h with h | ⟨m2, hm, hk⟩
      · cases h
      · simp only [Option.some.injEq] at hm
        subst hm
        simp [singleton.Delete, erase_of_not_mem _ _ hk]
  rw [hs]
  simp

theorem C5_delete_absent_noop_witness :
    (unallocated.Delete "a" = unallocated ∧
      ((unallocated.Delete "a").data = none ↔ unallocated.data = none) ∧
      (unallocated.Delete "a").Size = unallocated.Size ∧
      ∀ k2, (unallocated.Delete "a").Get k2 = unallocated.Get k2) ∧
    ((newSingleton.Set "b" "1").Delete "a" = newSingleton.Set "b" "1" ∧
      (((newSingleton.Set "b" "1").Delete "a").data = none ↔
        (newSingleton.Set "b" "1").data = none) ∧
      ((newSingleton.Set "b" "1").Delete "a").Size = (newSingleton.Set "b" "1").Size ∧
      ∀ k2, ((newSingleton.Set "b" "1").Delete "a").Get k2 =
        (newSingleton.Set "b" "1").Get k2) :=
  ⟨C5_delete_absent_noop unallocated "a" (Or.inl rfl),
   C5_delete_absent_noop (newSingleton.Set "b" "1") "a"
     (Or.inr ⟨_, rfl, by
       rw [AList.mem_keys, makeMap, AList.keys_insert]
       decide⟩)⟩

theorem exec_snoc (s : singleton) (ops : List Op) (op : Op) :
    exec s (ops ++ [op]) = op.next (exec s ops) := by
  simp [exec, List.foldl_append]

theorem lastIsSet_snoc (ops : List Op) (op : Op) (k : String) :
    lastIsSet (ops ++ [op]) k =
      if op.mutates k then (op.setKey).isSome else lastIsSet ops k := by
  by_cases h : op.mutates k = true
  · cases op <;> simp_all [lastIsSet, List.filter_append, List.filter_cons, Op.mutates, Op.setKey]
  · simp [lastIsSet, List.filter_append, List.filter_cons, h]

theorem lastIsSet_mem (ops : List Op) (k : String) (h : lastIsSet ops k = true) :
    k ∈ ops.filterMap Op.setKey := by
  unfold lastIsSet at h
  split at h
  · rename_i key value hl
    have hm : Op.set key value ∈ ops.filter (Op.mutates k) := List.mem_of_mem_getLast? (by rw [hl]; exact rfl)
    rw [List.mem_filter] at hm
    have hk : key = k := by simpa [Op.mutates] using hm.2
    rw [List.mem_filterMap]
    exact ⟨_, hm.1, by simp [Op.setKey, hk]⟩
  · cases h

/-- The keys of the map after a run from a fresh store are exactly those whose latest
`Set`/`Delete` is a `Set`. -/
theorem exec_keys (ops : List Op) :
    ∃ m : GoMap, (exec newSingleton ops).data = some m ∧
      ∀ k, k ∈ m ↔ lastIsSet ops k = true := by
  induction ops using List.reverseRecOn with
  | nil =>
    refine ⟨makeMap, rfl, fun k => ?_⟩
    simp [makeMap, lastIsSet, AList.not_mem_empty]
  | append_singleton ops op ih =>
    obtain ⟨m, hm, hk⟩ := ih
    rw [exec_snoc]
    cases op with
    | set key value =>
      refine ⟨m.insert key value, by simp [Op.next, singleton.Set, hm], fun k => ?_⟩
      rw [lastIsSet_snoc, AList.mem_insert, hk]
      by_cases h : key = k
      · simp [Op.mutates, Op.setKey, h]
      · have h2 : ¬ k = key := fun e => h e.symm
        simp [Op.mutates, h, h2]
    | delete key =>
      refine ⟨m.erase key, by simp [Op.next, singleton.Delete, hm], fun k => ?_⟩
      rw [lastIsSet_snoc, AList.mem_erase, hk]
      by_cases h : key = k
      · simp [Op.mutates, Op.setKey, h]
      · have h2 : ¬ k = key := fun e => h e.symm
        simp [Op.mutates, h, h2]
    | get key =>
      refine ⟨m, by simp [Op.next, hm], fun k => ?_⟩
      rw [lastIsSet_snoc, hk]
      simp [Op.mutates]
    | size =>
      refine ⟨m, by simp [Op.next, hm], fun k => ?_⟩
      rw [lastIsSet_snoc, hk]
      simp [Op.mutates]

/-- C2: for every sequence of calls applied to a freshly constructed store, `Size()` equals
the number of distinct keys whose most recent `Set`/`Delete` in the sequence is a `Set`;
a key set several times is counted once (`liveKeys` has no repetition). -/
theorem C2_size_counts_live_keys (ops : List Op) :
    (exec newSingleton ops).Size = ((liveKeys ops).length : Int) ∧ (liveKeys ops).Nodup := by
  obtain ⟨m, hm, hk⟩ := exec_keys ops
  have hnd : (liveKeys ops).Nodup := (List.nodup_dedup _).filter _
  refine ⟨?_, hnd⟩
  have hperm : m.keys.Perm (liveKeys ops) := by
    rw [List.perm_ext_iff_of_nodup m.keys_nodup hnd]
    intro k
    rw [← AList.mem_keys, hk]
    simp only [liveKeys, List.mem_filter, List.mem_dedup]
    exact ⟨fun h => ⟨lastIsSet_mem ops k h, h⟩, fun h => h.2⟩
  have hlen : m.entries.length = m.keys.length := by
    simp [AList.keys, List.keys]
  simp [singleton.Size, hm, hlen, hperm.length_eq]

theorem sameContents_step (s t : singleton) (op : Op) (h : sameContents s t) :
    op.result s = op.result t ∧ sameContents (op.next s) (op.next t) := by
  rcases h with rfl | ⟨rfl, rfl⟩
  · exact ⟨rfl, Or.inl rfl⟩
  · cases op with
    | set key value =>
      exact ⟨rfl, Or.inl rfl⟩
    | get key =>
      refine ⟨?_, Or.inr ⟨rfl, rfl⟩⟩
      simp [Op.result, singleton.Get, unallocated, newSingleton, makeMap, mapIndex]
    | delete key =>
      refine ⟨rfl, Or.inr ⟨rfl, ?_⟩⟩
      simp only [Op.next, singleton.Delete, newSingleton, makeMap]
      rw [erase_of_not_mem _ _ (AList.not_mem_empty key)]
    | size =>
      refine ⟨?_, Or.inr ⟨rfl, rfl⟩⟩
      simp [Op.result, singleton.Size, unallocated, newSingleton, makeMap]

theorem sameContents_results (ops : List Op) :
    ∀ s t : singleton, sameContents s t → results s ops = results t ops := by
  induction ops with
  | nil => intro s t _; rfl
  | cons op rest ih =>
    intro s t h
    obtain ⟨hr, hn⟩ := sameContents_step s t op h
    simp only [results, hr, ih _ _ hn]

/-- C6: a store whose map is unallocated is observationally equivalent to a store with an
allocated empty map: `Size()` is `0` on it, and for every sequence of `Set`/`Get`/`Delete`/
`Size` calls the results obtained from the unallocated store equal, call by call, those
obtained from the empty allocated store. -/
theorem C6_unallocated_equiv_empty (ops : List Op) :
    unallocated.Size = 0 ∧ newSingleton.Size = 0 ∧
    results unallocated ops = results newSingleton ops := by
  refine ⟨rfl, rfl, sameContents_results ops _ _ (Or.inr ⟨rfl, rfl⟩)⟩

/-! ## Claims about the accessors -/

/-- C7: evaluation of the driver's opening calls. From the initial registry the calls
`GetInstance_example_1`, `_2`, `_3`, `_4` in that order construct three stores: the first two
calls return the store built by the first call, the third returns a second store and the
fourth a third one. -/
theorem C7_driver_calls_construct_three :
    (runCalls newSingleton Registry.initial
        [.example_1, .example_2, .example_3, .example_4]).1
      = [some 0, some 0, some 1, some 2] ∧
    (runCalls newSingleton Registry.initial
        [.example_1, .example_2, .example_3, .example_4]).2.heap.length = 3 := by
  decide

theorem first_call {σ : Type} (mk : σ) (c : Strategy) :
    c.call mk Registry.initial = (some 0, afterFirst mk c) ∧ (afterFirst mk c).heap = [mk] := by
  cases c <;>
    simp [afterFirst, Strategy.call, GetInstance_example_1, GetInstance_example_2,
      GetInstance_example_3, GetInstance_example_4, Registry.initial, Registry.construct]

theorem later_call {σ : Type} (mk : σ) (c : Strategy) :
    c.call mk (afterFirst mk c) = (some 0, afterFirst mk c) := by
  cases c <;>
    simp [afterFirst, Strategy.call, GetInstance_example_1, GetInstance_example_2,
      GetInstance_example_3, GetInstance_example_4, Registry.initial, Registry.construct]

theorem later_calls {σ : Type} (mk : σ) (c : Strategy) (n : Nat) :
    runCalls mk (afterFirst mk c) (List.replicate n c)
      = (List.replicate n (some 0), afterFirst mk c) := by
  induction n with
  | zero => rfl
  | succ n ih => simp [List.replicate_succ, runCalls, later_call, ih]

/-- C8: for each of the four accessor strategies taken alone, and for either constructed
object (`mk` is the struct literal of `singleton_example.go` or the map literal of
`singleton_example_1.go`): from the initial registry, `n >= 1` sequential calls of that one
strategy construct exactly one store, already present after the first call, and every call
returns that same instance. -/
theorem C8_single_strategy_constructs_once {σ : Type} (mk : σ) (c : Strategy) (n : Nat)
    (hn : 1 ≤ n) :
    (runCalls mk Registry.initial (List.replicate n c)).1 = List.replicate n (some 0) ∧
    (runCalls mk Registry.initial (List.replicate n c)).2.heap = [mk] ∧
    (c.call mk Registry.initial).2.heap = [mk] := by
  obtain ⟨m, rfl⟩ : ∃ m, n = m + 1 := ⟨n - 1, by omega⟩
  obtain ⟨h1, h2⟩ := first_call mk c
  refine ⟨?_, ?_, ?_⟩
  · simp [List.replicate_succ, runCalls, h1, later_calls]
  · simp [List.replicate_succ, runCalls, h1, later_calls, h2]
  · rw [h1]; exact h2

theorem C8_single_strategy_constructs_once_witness :
    1 ≤ 3 ∧
    ((runCalls newSingleton Registry.initial (List.replicate 3 Strategy.example_4)).1
        = List.replicate 3 (some 0) ∧
      (runCalls newSingleton Registry.initial (List.replicate 3 Strategy.example_4)).2.heap
        = [newSingleton] ∧
      (Strategy.example_4.call newSingleton Registry.initial).2.heap = [newSingleton]) :=
  ⟨by decide, C8_single_strategy_constructs_once newSingleton Strategy.example_4 3 (by decide)⟩

/-- C9: evaluation of the driver's sharing test. After the four accessors are called in the
order 1, 2, 3, 4 and `s3.Set("nome", "João")` is executed, `s3.Get("nome")` returns
`("João", true)` while `s1.Get("nome")`, `s2.Get("nome")` and `s4.Get("nome")` each return
`("", false)`: the value is stored in the second of three distinct stores. -/
theorem C9_driver_value_not_shared :
    ∃ ptrs r, driverShare "nome" "João" = some (ptrs, r) ∧
      ptrs = [some 0, some 0, some 1, some 2] ∧
      getAt r (ptrs.getD 2 none) "nome" = some ("João", true) ∧
      getAt r (ptrs.getD 0 none) "nome" = some ("", false) ∧
      getAt r (ptrs.getD 1 none) "nome" = some ("", false) ∧
      getAt r (ptrs.getD 3 none) "nome" = some ("", false) := by
  refine ⟨_, _, rfl, ?_⟩
  decide

/-! ## Concurrent callers -/

theorem step_some {σ : Type} {mk : σ} {w w1 : World σ} {i : Nat} (h : step mk w i = some w1) :
    ∃ pc w2 pc2, w.threads[i]? = some pc ∧ pc.fire mk w = some (w2, pc2) ∧
      w1 = { w2 with threads := w.threads.set i pc2 } := by
  unfold step at h
  cases hpc : w.threads[i]? with
  | none => simp [hpc] at h
  | some pc =>
    cases hf : pc.fire mk w with
    | none => simp [hpc, hf] at h
    | some out =>
      simp only [hpc, hf, Option.some.injEq] at h
      exact ⟨pc, out.1, out.2, rfl, hf, h.symm⟩

theorem step_of_fire {σ : Type} {mk : σ} {w w2 : World σ} {i : Nat} {pc pc2 : Pc}
    (hpc : w.threads[i]? = some pc) (hf : pc.fire mk w = some (w2, pc2)) :
    step mk w i = some { w2 with threads := w.threads.set i pc2 } := by
  simp [step, hpc, hf]

theorem fire_rank {σ : Type} {mk : σ} {w w2 : World σ} {pc pc2 : Pc}
    (hf : pc.fire mk w = some (w2, pc2)) : pc2.rank < pc.rank := by
  cases pc <;> simp only [Pc.fire] at hf <;> (try split at hf) <;> (try split at hf) <;>
    simp at hf <;> obtain ⟨-, rfl⟩ := hf <;> simp [Pc.rank]

theorem sum_rank_set (l : List Pc) (i : Nat) (pc pc2 : Pc) (hi : l[i]? = some pc)
    (hr : pc2.rank < pc.rank) :
    ((l.set i pc2).map Pc.rank).sum < (l.map Pc.rank).sum := by
  induction l generalizing i with
  | nil => simp at hi
  | cons a l ih =>
    cases i with
    | zero =>
      simp only [List.getElem?_cons_zero, Option.some.injEq] at hi
      subst hi
      simp only [List.set_cons_zero, List.map_cons, List.sum_cons]
      omega
    | succ i =>
      simp only [List.getElem?_cons_succ] at hi
      have := ih i hi
      simp only [List.set_cons_succ, List.map_cons, List.sum_cons]
      omega

/-- Every step uses up fuel, so no interleaving runs forever. -/
theorem step_fuel {σ : Type} {mk : σ} {w w1 : World σ} {i : Nat}
    (h : step mk w i = some w1) : w1.fuel < w.fuel := by
  obtain ⟨pc, w2, pc2, hpc, hf, rfl⟩ := step_some h
  exact sum_rank_set _ _ _ _ hpc (fire_rank hf)

theorem step_length {σ : Type} {mk : σ} {w w1 : World σ} {i : Nat}
    (h : step mk w i = some w1) : w1.threads.length = w.threads.length := by
  obtain ⟨pc, w2, pc2, hpc, hf, rfl⟩ := step_some h
  simp

theorem runSchedule_length {σ : Type} (mk : σ) (sched : List Nat) :
    ∀ w : World σ, (runSchedule mk w sched).threads.length = w.threads.length := by
  induction sched with
  | nil => intro w; rfl
  | cons i rest ih =>
    intro w
    simp only [runSchedule]
    cases hs : step mk w i with
    | none => simpa using ih w
    | some w1 => simpa [step_length hs] using ih w1

theorem runSchedule_append {σ : Type} (mk : σ) (s1 s2 : List Nat) :
    ∀ w : World σ, runSchedule mk w (s1 ++ s2) = runSchedule mk (runSchedule mk w s1) s2 := by
  induction s1 with
  | nil => intro w; rfl
  | cons i rest ih =>
    intro w
    simp only [List.cons_append, runSchedule]
    cases hs : step mk w i with
    | none => simpa using ih w
    | some w1 => simpa using ih w1

theorem Good.lock_of_inCS {σ : Type} {c : Strategy} {w : World σ} {pc : Pc}
    (h : Good c w pc) (hc : pc.inCS = true) : w.lock = true := by
  cases pc <;> simp_all [Good, Pc.inCS]

theorem Good.running_of_inOnce {σ : Type} {c : Strategy} {w : World σ} {pc : Pc}
    (h : Good c w pc) (hc : pc.inOnce = true) : w.onceRunning = true := by
  cases pc <;> simp_all [Good, Pc.inOnce]

/-- The list bookkeeping of a step: when thread `i` moves from `pc` to `pc2` and the shared
variables become those of `w2`, the invariant is kept as soon as the shared facts hold in `w2`,
the new point is justified, the other callers' facts survive the change, and the moving thread
enters a critical region only when no caller is in one. -/
theorem Inv.update {σ : Type} {mk : σ} {c : Strategy} {w : World σ} (hinv : Inv mk c w)
    {i : Nat} {pc : Pc} (hi : w.threads[i]? = some pc) (w2 : World σ) (pc2 : Pc)
    (hshared : GoodShared mk w2)
    (hself : Good c w2 pc2)
    (hframe : ∀ q, Good c w q → (pc.critical = true → q.critical = false) → Good c w2 q)
    (hcrit : pc2.critical = true →
      pc.critical = true ∨ ∀ q, Good c w q → q.critical = false)
    (hheld : w2.lock = true → pc2.inCS = true ∨ (w.lock = true ∧ pc.inCS = false))
    (hrun : w2.onceRunning = true →
      pc2.inOnce = true ∨ (w.onceRunning = true ∧ pc.inOnce = false)) :
    Inv mk c { w2 with threads := w.threads.set i pc2 } := by
  have hlt : i < w.threads.length := by
    rcases List.getElem?_eq_some.mp hi with ⟨h, -⟩
    exact h
  have hget : ∀ j : Nat, (w.threads.set i pc2)[j]? =
      if i = j then some pc2 else w.threads[j]? := by
    intro j
    rw [List.getElem?_set]
    simp [hlt]
  have hother : ∀ (j : Nat) (q : Pc), i ≠ j → w.threads[j]? = some q →
      pc.critical = true → q.critical = false := by
    intro j q hij hq hpc
    cases hqc : q.critical with
    | false => rfl
    | true => exact absurd (hinv.excl i j pc q hi hq hpc hqc) hij
  refine ⟨hshared, ?_, ?_, ?_, ?_⟩
  · intro j q hq
    simp only [hget] at hq
    by_cases hij : i = j
    · simp only [hij, if_true, Option.some.injEq] at hq
      subst hq
      exact hself
    · simp only [hij, if_false] at hq
      have hG : Good c w q := hinv.good j q hq
      have hF := hframe q hG (hother j q hij hq)
      cases q <;> exact hF
  · intro j k pj pk hj hk hcj hck
    simp only [hget] at hj hk
    by_cases hij : i = j <;> by_cases hik : i = k
    · rw [← hij, ← hik]
    · simp only [hij, if_true, Option.some.injEq] at hj
      simp only [hik, if_false] at hk
      subst hj
      rcases hcrit hcj with h | h
      · have := hother k pk hik hk h
        rw [this] at hck
        cases hck
      · have := h pk (hinv.good k pk hk)
        rw [this] at hck
        cases hck
    · simp only [hik, if_true, Option.some.injEq] at hk
      simp only [hij, if_false] at hj
      subst hk
      rcases hcrit hck with h | h
      · have := hother j pj hij hj h
        rw [this] at hcj
        cases hcj
      · have := h pj (hinv.good j pj hj)
        rw [this] at hcj
        cases hcj
    · simp only [hij, if_false] at hj
      simp only [hik, if_false] at hk
      exact hinv.excl j k pj pk hj hk hcj hck
  · intro hl
    rcases hheld hl with h | ⟨h1, h2⟩
    · exact ⟨i, pc2, by simp [hget], h⟩
    · obtain ⟨k, q, hk, hq⟩ := hinv.held h1
      have hik : i ≠ k := by
        rintro rfl
        rw [hi] at hk
        cases hk
        rw [h2] at hq
        cases hq
      exact ⟨k, q, by simp [hget, hik, hk], hq⟩
  · intro hl
    rcases hrun hl with h | ⟨h1, h2⟩
    · exact ⟨i, pc2, by simp [hget], h⟩
    · obtain ⟨k, q, hk, hq⟩ := hinv.running h1
      have hik : i ≠ k := by
        rintro rfl
        rw [hi] at hk
        cases hk
        rw [h2] at hq
        cases hq
      exact ⟨k, q, by simp [hget, hik, hk], hq⟩

set_option maxHeartbeats 4000000 in
/-- What one step of a caller establishes, from the facts at its program point and the shared
facts alone: the premises of `Inv.update`. -/
theorem fire_keeps {σ : Type} {mk : σ} {c : Strategy} {w w2 : World σ} {pc pc2 : Pc}
    (hS : GoodShared mk w) (hG : Good c w pc) (hf : pc.fire mk w = some (w2, pc2)) :
    GoodShared mk w2 ∧ Good c w2 pc2 ∧
      (∀ q, Good c w q → (pc.critical = true → q.critical = false) → Good c w2 q) ∧
      (pc2.critical = true → pc.critical = true ∨ ∀ q, Good c w q → q.critical = false) ∧
      (w2.lock = true → pc2.inCS = true ∨ (w.lock = true ∧ pc.inCS = false)) ∧
      (w2.onceRunning = true →
        pc2.inOnce = true ∨ (w.onceRunning = true ∧ pc.inOnce = false)) := by
  cases pc
  case e1_test => exact absurd hG (by simp [Good])
  case e1_build => exact absurd hG (by simp [Good])
  case e1_ret => exact absurd hG (by simp [Good])
  case done rv => simp [Pc.fire] at hf
  all_goals
    simp only [Pc.fire] at hf
    repeat' split at hf
    all_goals try (simp at hf; done)
    all_goals
      simp only [Option.some.injEq, Prod.mk.injEq] at hf
      obtain ⟨rfl, rfl⟩ := hf
      refine ⟨?_, ?_, ?_, ?_, ?_, ?_⟩
      · first
          | exact hS
          | simp_all [GoodShared, Good, Registry.construct]
      · simp_all [GoodShared, Good, Registry.construct]
      · intro q hq hcq
        cases q <;>
          simp_all [GoodShared, Good, Pc.critical, Pc.inCS, Pc.inOnce, Registry.construct]
      · intro hc2
        first
          | (left; simp [Pc.critical, Pc.inCS, Pc.inOnce]; done)
          | (simp [Pc.critical, Pc.inCS, Pc.inOnce] at hc2; done)
          | (right; intro q hq; cases q <;>
              simp_all [Good, Pc.critical, Pc.inCS, Pc.inOnce])
      · simp_all [Good, Pc.inCS]
      · simp_all [Good, Pc.inOnce]

/-- Every step of a caller keeps the invariant. -/
theorem Inv.after_step {σ : Type} {mk : σ} {c : Strategy} {w w1 : World σ} {i : Nat}
    (hinv : Inv mk c w) (h : step mk w i = some w1) : Inv mk c w1 := by
  obtain ⟨pc, w2, pc2, hpc, hf, rfl⟩ := step_some h
  obtain ⟨k1, k2, k3, k4, k5, k6⟩ := fire_keeps hinv.shared (hinv.good i pc hpc) hf
  exact hinv.update hpc w2 pc2 k1 k2 k3 k4 k5 k6

/-- The invariant holds when `n` callers are about to enter one of the accessors 2, 3, 4. -/
theorem Inv.start {σ : Type} (mk : σ) (c : Strategy) (hc : c ≠ .example_1) (n : Nat) :
    Inv mk c (World.start n c) := by
  have hthr : ∀ (i : Nat) (pc : Pc), (World.start n c : World σ).threads[i]? = some pc →
      pc = c.entry := by
    intro i pc h
    simp only [World.start, List.getElem?_replicate] at h
    split at h
    · exact (Option.some.inj h).symm
    · cases h
  have hnc : c.entry.critical = false := by cases c <;> rfl
  refine ⟨?_, ?_, ?_, ?_, ?_⟩
  · simp [GoodShared, World.start, Registry.initial]
  · intro i pc h
    rw [hthr i pc h]
    cases c <;> simp_all [Good, Strategy.entry, World.start, Registry.initial]
  · intro i j pi pj hi _ hci _
    rw [hthr i pi hi, hnc] at hci
    cases hci
  · intro h
    simp [World.start] at h
  · intro h
    simp [World.start] at h

/-- The invariant holds after every interleaving. -/
theorem Inv.run {σ : Type} {mk : σ} {c : Strategy} (sched : List Nat) :
    ∀ w : World σ, Inv mk c w → Inv mk c (runSchedule mk w sched) := by
  induction sched with
  | nil => intro w h; exact h
  | cons i rest ih =>
    intro w h
    simp only [runSchedule]
    cases hs : step mk w i with
    | none => exact ih w h
    | some w1 => exact ih w1 (h.after_step hs)

theorem fire_none {σ : Type} {mk : σ} {w : World σ} {pc : Pc} (h : pc.fire mk w = none) :
    pc.isDone = true ∨ w.lock = true ∨ w.onceRunning = true := by
  cases pc <;> simp only [Pc.fire] at h <;> (try split at h) <;> (try split at h) <;>
    simp_all [Pc.isDone]

theorem fire_critical {σ : Type} (mk : σ) (w : World σ) (pc : Pc)
    (h : pc.critical = true) : ∃ out, pc.fire mk w = some out := by
  cases pc <;> simp_all [Pc.critical, Pc.inCS, Pc.inOnce, Pc.fire]

/-- No deadlock: while a caller has not returned, some caller can take a step. -/
theorem Inv.progress {σ : Type} {mk : σ} {c : Strategy} {w : World σ} (hinv : Inv mk c w)
    (hnd : w.allDone = false) : ∃ i, i < w.threads.length ∧ (step mk w i).isSome = true := by
  have critical_moves : ∀ (k : Nat) (q : Pc), w.threads[k]? = some q → q.critical = true →
      ∃ i, i < w.threads.length ∧ (step mk w i).isSome = true := by
    intro k q hk hq
    obtain ⟨out, hout⟩ := fire_critical mk w q hq
    refine ⟨k, (List.getElem?_eq_some.mp hk).1, ?_⟩
    rw [step_of_fire hk (show q.fire mk w = some (out.1, out.2) from hout)]
    rfl
  have hex : ∃ pc ∈ w.threads, pc.isDone = false := by
    by_contra hcon
    have : w.allDone = true := by
      simp only [World.allDone, List.all_eq_true]
      intro x hx
      cases hd : x.isDone with
      | true => rfl
      | false => exact absurd ⟨x, hx, hd⟩ hcon
    rw [this] at hnd
    cases hnd
  obtain ⟨pc, hmem, hpd⟩ := hex
  obtain ⟨j, hj⟩ := List.mem_iff_getElem?.mp hmem
  cases hf : pc.fire mk w with
  | some out =>
    refine ⟨j, (List.getElem?_eq_some.mp hj).1, ?_⟩
    rw [step_of_fire hj (show pc.fire mk w = some (out.1, out.2) from hf)]
    rfl
  | none =>
    rcases fire_none hf with h | h | h
    · rw [h] at hpd
      cases hpd
    · obtain ⟨k, q, hk, hq⟩ := hinv.held h
      exact critical_moves k q hk (by simp [Pc.critical, hq])
    · obtain ⟨k, q, hk, hq⟩ := hinv.running h
      exact critical_moves k q hk (by simp [Pc.critical, hq])

/-- Every state satisfying the invariant can be driven to the state in which every caller has
returned. -/
theorem Inv.complete {σ : Type} {mk : σ} {c : Strategy} (n : Nat) :
    ∀ w : World σ, w.fuel ≤ n → Inv mk c w →
      ∃ more, (runSchedule mk w more).allDone = true := by
  induction n with
  | zero =>
    intro w hfuel hinv
    cases hd : w.allDone with
    | true => exact ⟨[], hd⟩
    | false =>
      obtain ⟨i, -, hi⟩ := hinv.progress hd
      obtain ⟨w1, hw1⟩ := Option.isSome_iff_exists.mp hi
      have := step_fuel hw1
      omega
  | succ n ih =>
    intro w hfuel hinv
    cases hd : w.allDone with
    | true => exact ⟨[], hd⟩
    | false =>
      obtain ⟨i, -, hi⟩ := hinv.progress hd
      obtain ⟨w1, hw1⟩ := Option.isSome_iff_exists.mp hi
      have hlt := step_fuel hw1
      obtain ⟨more, hmore⟩ := ih w1 (by omega) (hinv.after_step hw1)
      exact ⟨i :: more, by simpa [runSchedule, hw1] using hmore⟩

/-- A caller that has returned holds the address of the one constructed object. -/
theorem Inv.returned {σ : Type} {mk : σ} {c : Strategy} {w : World σ} (hinv : Inv mk c w)
    {i : Nat} {rv : Option Nat} (h : w.threads[i]? = some (.done rv)) :
    rv = some 0 ∧ w.reg.heap = [mk] := by
  have hG := hinv.good i _ h
  simp only [Good] at hG
  refine ⟨hG.1, ?_⟩
  rcases hinv.shared.1 with ⟨-, h0⟩ | ⟨h1, -⟩
  · rw [hG.2] at h0
    cases h0
  · exact h1

theorem Inv.heap_le {σ : Type} {mk : σ} {c : Strategy} {w : World σ} (hinv : Inv mk c w) :
    w.reg.heap.length ≤ 1 := by
  rcases hinv.shared.1 with ⟨h, -⟩ | ⟨h, -⟩ <;> simp [h]

theorem Inv.allDone_threads {σ : Type} {mk : σ} {c : Strategy} {w : World σ}
    (hinv : Inv mk c w) (hd : w.allDone = true) :
    w.threads = List.replicate w.threads.length (.done (some 0)) := by
  rw [List.eq_replicate_iff]
  refine ⟨rfl, fun pc hpc => ?_⟩
  simp only [World.allDone, List.all_eq_true] at hd
  have hdone := hd pc hpc
  obtain ⟨j, hj⟩ := List.mem_iff_getElem?.mp hpc
  cases pc <;> simp [Pc.isDone] at hdone
  rename_i rv
  rw [(hinv.returned hj).1]

/-- The two embeddings agree: a caller that runs alone through an accessor, step by step,
returns the pointer and leaves the package-level variables that the sequential accessor
computes, with `lock` released. -/
theorem solo_run_eq_call {σ : Type} (mk : σ) (r : Registry σ) (c : Strategy) :
    (runSchedule mk (World.solo r c) (List.replicate 7 0)).threads
        = [.done (c.call mk r).1] ∧
    (runSchedule mk (World.solo r c) (List.replicate 7 0)).reg
        = (c.call mk r).2 ∧
    (runSchedule mk (World.solo r c) (List.replicate 7 0)).lock = false := by
  rcases r with ⟨hp, inst, o, a⟩
  cases c
  · by_cases h : inst = none <;>
      simp [World.solo, Strategy.entry, Strategy.call, GetInstance_example_1, runSchedule,
        step, Pc.fire, List.replicate, h, Registry.construct]
  · by_cases h : inst = none <;>
      simp [World.solo, Strategy.entry, Strategy.call, GetInstance_example_2, runSchedule,
        step, Pc.fire, List.replicate, h, Registry.construct]
  · by_cases h : o = true <;>
      simp [World.solo, Strategy.entry, Strategy.call, GetInstance_example_3, runSchedule,
        step, Pc.fire, List.replicate, h, Registry.construct]
  · by_cases h : a = 1 <;> by_cases h0 : a = 0 <;>
      simp [World.solo, Strategy.entry, Strategy.call, GetInstance_example_4, runSchedule,
        step, Pc.fire, List.replicate, h, h0, Registry.construct]

/-- C10: for each of the accessors 2 (mutex), 3 (one-shot) and 4 (double-checked), every
number `n >= 1` of concurrent callers of that accessor from the initial state, and every
interleaving `sched` of their steps: at most one store is constructed; every caller that has
returned holds the address `0` of the one constructed store; once all callers have returned,
all `n` results are that same address and exactly one store exists; while a caller has not
returned some caller can move (no deadlock), every step uses up fuel (no interleaving runs
forever) and the interleaving can be continued until all callers have returned. -/
theorem C10_concurrent_callers_construct_once {σ : Type} (mk : σ) (c : Strategy)
    (hc : c ≠ .example_1) (n : Nat) (hn : 1 ≤ n) (sched : List Nat) :
    (runSchedule mk (World.start n c) sched).reg.heap.length ≤ 1 ∧
    (∀ (i : Nat) (rv : Option Nat),
      (runSchedule mk (World.start n c) sched).threads[i]? = some (.done rv) →
        rv = some 0 ∧ (runSchedule mk (World.start n c) sched).reg.heap = [mk]) ∧
    ((runSchedule mk (World.start n c) sched).allDone = true →
      (runSchedule mk (World.start n c) sched).threads = List.replicate n (.done (some 0)) ∧
      (runSchedule mk (World.start n c) sched).reg.heap = [mk]) ∧
    ((runSchedule mk (World.start n c) sched).allDone = false →
      ∃ i, i < n ∧ (step mk (runSchedule mk (World.start n c) sched) i).isSome = true) ∧
    (∀ (i : Nat) (w1 : World σ), step mk (runSchedule mk (World.start n c) sched) i = some w1 →
      w1.fuel < (runSchedule mk (World.start n c) sched).fuel) ∧
    (∃ more, (runSchedule mk (runSchedule mk (World.start n c) sched) more).allDone = true) := by
  have hinv : Inv mk c (runSchedule mk (World.start n c) sched) :=
    Inv.run sched _ (Inv.start mk c hc n)
  have hlen : (runSchedule mk (World.start n c) sched).threads.length = n := by
    rw [runSchedule_length]
    simp [World.start]
  refine ⟨hinv.heap_le, fun i rv h => hinv.returned h, fun hd => ?_, fun hd => ?_,
    fun i w1 h => step_fuel h, Inv.complete _ _ (Nat.le_refl _) hinv⟩
  · have hthr := hinv.allDone_threads hd
    rw [hlen] at hthr
    refine ⟨hthr, ?_⟩
    have h0 : (runSchedule mk (World.start n c) sched).threads[0]? = some (.done (some 0)) := by
      rw [hthr, List.getElem?_replicate]
      simp
      omega
    exact (hinv.returned h0).2
  · obtain ⟨i, hi, hstep⟩ := hinv.progress hd
    exact ⟨i, hlen ▸ hi, hstep⟩

theorem C10_concurrent_callers_construct_once_witness :
    (Strategy.example_4 ≠ .example_1 ∧ 1 ≤ 2 ∧
      (runSchedule newSingleton (World.start 2 .example_4) sched10).allDone = true) ∧
    ((runSchedule newSingleton (World.start 2 .example_4) sched10).reg.heap.length ≤ 1 ∧
      (∀ (i : Nat) (rv : Option Nat),
        (runSchedule newSingleton (World.start 2 .example_4) sched10).threads[i]? = some (.done rv) →
          rv = some 0 ∧ (runSchedule newSingleton (World.start 2 .example_4) sched10).reg.heap = [newSingleton]) ∧
      ((runSchedule newSingleton (World.start 2 .example_4) sched10).allDone = true →
        (runSchedule newSingleton (World.start 2 .example_4) sched10).threads = List.replicate 2 (.done (some 0)) ∧
        (runSchedule newSingleton (World.start 2 .example_4) sched10).reg.heap = [newSingleton]) ∧
      ((runSchedule newSingleton (World.start 2 .example_4) sched10).allDone = false →
        ∃ i, i < 2 ∧ (step newSingleton (runSchedule newSingleton (World.start 2 .example_4) sched10) i).isSome = true) ∧
      (∀ (i : Nat) (w1 : World singleton), step newSingleton (runSchedule newSingleton (World.start 2 .example_4) sched10) i = some w1 →
        w1.fuel < (runSchedule newSingleton (World.start 2 .example_4) sched10).fuel) ∧
      (∃ more, (runSchedule newSingleton (runSchedule newSingleton (World.start 2 .example_4) sched10) more).allDone = true)) :=
  ⟨⟨by decide, by decide, by decide⟩,
    C10_concurrent_callers_construct_once newSingleton .example_4 (by decide) 2 (by decide)
      sched10⟩

/-! ## Frame and size steps of the store -/

theorem entries_length_eq_keys (m : GoMap) : m.entries.length = m.keys.length := by
  simp [AList.keys, List.keys]

theorem size_insert (m : GoMap) (k v : String) :
    (m.insert k v).entries.length = if k ∈ m then m.entries.length else m.entries.length + 1 := by
  rw [entries_length_eq_keys, entries_length_eq_keys, AList.keys_insert, List.length_cons]
  by_cases h : k ∈ m
  · have hk : k ∈ m.keys := AList.mem_keys.mp h
    have hpos : 0 < m.keys.length := List.length_pos_of_mem hk
    rw [if_pos h, List.length_erase_of_mem hk]
    omega
  · have hk : k ∉ m.keys := fun hk => h (AList.mem_keys.mpr hk)
    rw [if_neg h, List.erase_of_not_mem hk]

theorem size_erase (m : GoMap) (k : String) :
    (m.erase k).entries.length = if k ∈ m then m.entries.length - 1 else m.entries.length := by
  rw [entries_length_eq_keys, entries_length_eq_keys, AList.keys_erase]
  by_cases h : k ∈ m
  · have hk : k ∈ m.keys := AList.mem_keys.mp h
    rw [if_pos h, List.length_erase_of_mem hk]
  · have hk : k ∉ m.keys := fun hk => h (AList.mem_keys.mpr hk)
    rw [if_neg h, List.erase_of_not_mem hk]

theorem mapIndex_found (m : GoMap) (k : String) : (mapIndex m k).2 = true ↔ k ∈ m := by
  cases hl : m.lookup k with
  | none =>
    have hk : k ∉ m := AList.lookup_eq_none.mp hl
    simp [mapIndex, hl, hk]
  | some v =>
    have hk : k ∈ m := by
      rw [← AList.lookup_isSome, hl]; rfl
    simp [mapIndex, hl, hk]

/-- C19: `Set` and `Delete` affect only the key they name: for every store state, keys
`k ≠ k2` and value `v`, `Get(k2)` returns the same result after `Set(k, v)` as before it, and
the same result after `Delete(k)` as before it. -/
theorem C19_set_delete_frame (s : singleton) (k k2 v : String) (hne : k ≠ k2) :
    (s.Set k v).Get k2 = s.Get k2 ∧ (s.Delete k).Get k2 = s.Get k2 := by
  have hne2 : k2 ≠ k := fun e => hne e.symm
  rcases s with ⟨_ | m⟩
  · refine ⟨?_, rfl⟩
    simp only [singleton.Set, singleton.Get, mapIndex, AList.lookup_insert_ne hne2, makeMap,
      AList.lookup_empty]
  · constructor
    · simp [singleton.Set, singleton.Get, mapIndex, AList.lookup_insert_ne hne2]
    · simp [singleton.Delete, singleton.Get, mapIndex, AList.lookup_erase_ne hne2]

theorem C19_set_delete_frame_witness :
    "a" ≠ "b" ∧
    (((newSingleton.Set "b" "1").Set "a" "2").Get "b" = (newSingleton.Set "b" "1").Get "b" ∧
      ((newSingleton.Set "b" "1").Delete "a").Get "b" = (newSingleton.Set "b" "1").Get "b") :=
  ⟨by decide, C19_set_delete_frame (newSingleton.Set "b" "1") "a" "b" "2" (by decide)⟩

/-- C20: `Size` changes by exactly the expected step: for every store state, `Set(k, v)`
increases `Size()` by 1 when `Get(k)` reported absent before and leaves it unchanged
otherwise; `Delete(k)` decreases `Size()` by 1 when `Get(k)` reported present before and
leaves it unchanged otherwise; `Size()` is never negative. -/
theorem C20_size_step (s : singleton) (k v : String) :
    (s.Set k v).Size = s.Size + (if (s.Get k).2 = true then 0 else 1) ∧
    (s.Delete k).Size = s.Size - (if (s.Get k).2 = true then 1 else 0) ∧
    0 ≤ s.Size := by
  rcases s with ⟨_ | m⟩
  · simp [singleton.Set, singleton.Get, singleton.Delete, singleton.Size, makeMap, size_insert,
      AList.not_mem_empty]
  · have hf := mapIndex_found m k
    by_cases h : k ∈ m
    · have hpos : 0 < m.entries.length := by
        rw [entries_length_eq_keys]
        exact List.length_pos_of_mem (AList.mem_keys.mp h)
      have hg : (mapIndex m k).2 = true := hf.mpr h
      simp only [singleton.Set, singleton.Get, singleton.Delete, singleton.Size, size_insert,
        size_erase, if_pos h, hg, if_true]
      omega
    · have hg : ¬ (mapIndex m k).2 = true := fun e => h (hf.mp e)
      simp only [singleton.Set, singleton.Get, singleton.Delete, singleton.Size, size_insert,
        size_erase, if_neg h, hg, if_false, Bool.false_eq_true]
      omega

/-! ## Further claims about the accessors -/

/-- C15: `GetInstance_example_1` is not safe under concurrent first access: there is an
interleaving of two concurrent callers from the initial state in which two stores are
constructed and the two callers return different instances. -/
theorem C15_unsynchronized_constructs_twice :
    ∃ sched : List Nat,
      (runSchedule newSingleton (World.start 2 .example_1) sched).reg.heap.length = 2 ∧
      (runSchedule newSingleton (World.start 2 .example_1) sched).threads
        = [.done (some 0), .done (some 1)] ∧
      (runSchedule newSingleton (World.start 2 .example_1) sched).allDone = true ∧
      (some 0 : Option Nat) ≠ some 1 :=
  ⟨sched15, by decide, by decide, by decide, by decide⟩

theorem call_flag_one {σ : Type} (mk : σ) (r : Registry σ) (c : Strategy)
    (h : r.atomicinz = 1) : (c.call mk r).2.atomicinz = 1 := by
  cases c <;>
    simp [Strategy.call, GetInstance_example_1, GetInstance_example_2, GetInstance_example_3,
      GetInstance_example_4, Registry.construct, h] <;> split <;> simp [h]

theorem call_flag_ne_zero {σ : Type} (mk : σ) (r : Registry σ) (c : Strategy)
    (h : r.atomicinz ≠ 0) : (c.call mk r).2.atomicinz ≠ 0 ∧
      (c = .example_4 → (c.call mk r).2 = r) := by
  cases c <;>
    simp [Strategy.call, GetInstance_example_1, GetInstance_example_2, GetInstance_example_3,
      GetInstance_example_4, Registry.construct, h] <;> split <;> simp [h]

theorem runCalls_flag_one {σ : Type} (mk : σ) (calls : List Strategy) :
    ∀ r : Registry σ, r.atomicinz = 1 → (runCalls mk r calls).2.atomicinz = 1 := by
  induction calls with
  | nil => intro r h; exact h
  | cons c rest ih =>
    intro r h
    simp only [runCalls]
    exact ih _ (call_flag_one mk r c h)

theorem buildsBy4_of_flag {σ : Type} (mk : σ) (calls : List Strategy) :
    ∀ r : Registry σ, r.atomicinz ≠ 0 → buildsBy mk .example_4 r calls = 0 := by
  induction calls with
  | nil => intro r _; rfl
  | cons c rest ih =>
    intro r h
    obtain ⟨h1, h2⟩ := call_flag_ne_zero mk r c h
    simp only [buildsBy, ih _ h1, Nat.add_zero]
    split
    · rename_i hc
      rw [h2 hc]
      simp
    · rfl

theorem buildsBy4_le {σ : Type} (mk : σ) (calls : List Strategy) :
    ∀ r : Registry σ, buildsBy mk .example_4 r calls ≤ 1 := by
  induction calls with
  | nil => intro r; simp [buildsBy]
  | cons c rest ih =>
    intro r
    by_cases h : r.atomicinz = 0
    · by_cases hc : c = .example_4
      · subst hc
        have hflag : (Strategy.example_4.call mk r).2.atomicinz ≠ 0 := by
          simp [Strategy.call, GetInstance_example_4, Registry.construct, h]
        have hlen : (Strategy.example_4.call mk r).2.heap.length - r.heap.length = 1 := by
          simp [Strategy.call, GetInstance_example_4, Registry.construct, h]
        simp [buildsBy, buildsBy4_of_flag mk rest _ hflag, hlen]
      · simpa [buildsBy, hc] using ih _
    · simp [buildsBy4_of_flag mk (c :: rest) r h]

/-- C16: the double-checked accessor in every registry state. With the flag at `1` it returns
the current `instance` and changes nothing; with the flag at `0` it constructs a new store,
assigns its address to `instance` and sets the flag to `1`. Hence over any sequence of
accessor calls a flag at `1` stays at `1`, and the calls of `GetInstance_example_4` construct
at most one store. -/
theorem C16_double_checked_accessor {σ : Type} (mk : σ) (r : Registry σ) :
    (r.atomicinz = 1 → GetInstance_example_4 mk r = (r.instance_, r)) ∧
    (r.atomicinz = 0 → GetInstance_example_4 mk r =
      (some r.heap.length,
        { heap := r.heap ++ [mk], instance_ := some r.heap.length, once := r.once,
          atomicinz := 1 })) ∧
    (∀ calls : List Strategy, r.atomicinz = 1 → (runCalls mk r calls).2.atomicinz = 1) ∧
    (∀ calls : List Strategy, buildsBy mk .example_4 r calls ≤ 1) := by
  refine ⟨fun h => ?_, fun h => ?_, fun calls h => runCalls_flag_one mk calls r h,
    fun calls => buildsBy4_le mk calls r⟩
  · simp [GetInstance_example_4, h]
  · simp [GetInstance_example_4, h, Registry.construct]

theorem SeqInv.initial {σ : Type} (mk : σ) : SeqInv mk (Registry.initial : Registry σ) := by
  simp [SeqInv, Registry.initial]

/-- One accessor call keeps `SeqInv`, returns the (non-nil) value of `instance` after the call
and never shrinks the heap. -/
theorem SeqInv.call {σ : Type} {mk : σ} {r : Registry σ} (h : SeqInv mk r) (c : Strategy) :
    SeqInv mk (c.call mk r).2 ∧
    (∃ a, (c.call mk r).1 = some a ∧ a < (c.call mk r).2.heap.length) ∧
    r.heap.length ≤ (c.call mk r).2.heap.length := by
  obtain ⟨h1, h2, h3, h4, h5⟩ := h
  rcases r with ⟨hp, inst, o, fl⟩
  simp only at h1 h2 h3 h4 h5
  cases c
  · cases inst with
    | none =>
      simp only [ne_eq, not_true_eq_false, imp_false] at h1 h2
      simp_all [SeqInv, Strategy.call, GetInstance_example_1, Registry.construct]
      intro s hs
      rcases hs with hs | hs
      · exact h5 s hs
      · exact hs
    | some a =>
      have := h4 a rfl
      simp_all [SeqInv, Strategy.call, GetInstance_example_1, Registry.construct]
      exact h5
  · cases inst with
    | none =>
      simp only [ne_eq, not_true_eq_false, imp_false] at h1 h2
      simp_all [SeqInv, Strategy.call, GetInstance_example_2, Registry.construct]
      intro s hs
      rcases hs with hs | hs
      · exact h5 s hs
      · exact hs
    | some a =>
      have := h4 a rfl
      simp_all [SeqInv, Strategy.call, GetInstance_example_2, Registry.construct]
      exact h5
  · cases o with
    | false =>
      simp_all [SeqInv, Strategy.call, GetInstance_example_3, Registry.construct]
      intro s hs
      rcases hs with hs | hs
      · exact h5 s hs
      · exact hs
    | true =>
      cases inst with
      | none => simp at h1
      | some a =>
        have := h4 a rfl
        simp_all [SeqInv, Strategy.call, GetInstance_example_3, Registry.construct]
        exact h5
  · have hfl : fl = 0 ∨ fl = 1 := by omega
    rcases hfl with rfl | rfl
    · simp_all [SeqInv, Strategy.call, GetInstance_example_4, Registry.construct]
      intro s hs
      rcases hs with hs | hs
      · exact h5 s hs
      · exact hs
    · cases inst with
      | none => simp at h2
      | some a =>
        have := h4 a rfl
        simp_all [SeqInv, Strategy.call, GetInstance_example_4, Registry.construct]
        exact h5

theorem SeqInv.runCalls {σ : Type} {mk : σ} (calls : List Strategy) :
    ∀ r : Registry σ, SeqInv mk r →
      SeqInv mk (Patterns.runCalls mk r calls).2 ∧
      r.heap.length ≤ (Patterns.runCalls mk r calls).2.heap.length ∧
      ∀ p ∈ (Patterns.runCalls mk r calls).1,
        ∃ a, p = some a ∧ a < (Patterns.runCalls mk r calls).2.heap.length := by
  induction calls with
  | nil =>
    intro r h
    exact ⟨h, Nat.le_refl _, by simp [Patterns.runCalls]⟩
  | cons c rest ih =>
    intro r h
    obtain ⟨hc1, ⟨a, ha, hlt⟩, hc3⟩ := h.call c
    obtain ⟨i1, i2, i3⟩ := ih _ hc1
    simp only [Patterns.runCalls]
    refine ⟨i1, Nat.le_trans hc3 i2, ?_⟩
    intro p hp
    rcases List.mem_cons.mp hp with rfl | hp
    · exact ⟨a, ha, Nat.lt_of_lt_of_le hlt i2⟩
    · exact i3 p hp

/-- C17: no accessor ever returns nil: for every finite sequential sequence of calls mixing
the four accessors from the initial state, every call returns a non-nil pointer to a store on
the heap, and that store is the constructed literal, whose map is allocated. -/
theorem C17_accessors_never_return_nil (calls : List Strategy) :
    ∀ p ∈ (runCalls newSingleton Registry.initial calls).1,
      ∃ a s, p = some a ∧
        (runCalls newSingleton Registry.initial calls).2.heap[a]? = some s ∧
        s.data = some makeMap := by
  obtain ⟨⟨-, -, -, -, hall⟩, -, hret⟩ :=
    SeqInv.runCalls calls _ (SeqInv.initial newSingleton)
  intro p hp
  obtain ⟨a, rfl, hlt⟩ := hret p hp
  refine ⟨a, _, rfl, List.getElem?_eq_getElem hlt, ?_⟩
  rw [hall _ (List.getElem_mem hlt)]
  rfl

theorem C17_accessors_never_return_nil_witness :
    some 1 ∈ (runCalls newSingleton Registry.initial
      [.example_1, .example_3, .example_2]).1 ∧
    ∃ a s, some 1 = some a ∧
      (runCalls newSingleton Registry.initial
        [.example_1, .example_3, .example_2]).2.heap[a]? = some s ∧
      s.data = some makeMap :=
  ⟨by decide,
    C17_accessors_never_return_nil [.example_1, .example_3, .example_2] (some 1) (by decide)⟩

theorem call_heap_le {σ : Type} (mk : σ) (r : Registry σ) (c : Strategy) :
    r.heap.length ≤ (c.call mk r).2.heap.length := by
  cases c <;>
    simp only [Strategy.call, GetInstance_example_1, GetInstance_example_2,
      GetInstance_example_3, GetInstance_example_4, Registry.construct] <;>
    repeat' split <;> simp

theorem heap_length_eq_builds {σ : Type} (mk : σ) (calls : List Strategy) :
    ∀ r : Registry σ, (runCalls mk r calls).2.heap.length =
      r.heap.length + (buildsBy mk .example_1 r calls + buildsBy mk .example_2 r calls +
        buildsBy mk .example_3 r calls + buildsBy mk .example_4 r calls) := by
  induction calls with
  | nil => intro r; simp [runCalls, buildsBy]
  | cons c rest ih =>
    intro r
    have hle := call_heap_le mk r c
    simp only [runCalls, buildsBy, ih]
    cases c <;> simp <;> omega

theorem call_instance_some {σ : Type} (mk : σ) (r : Registry σ) (c : Strategy)
    (h : r.instance_ ≠ none) : (c.call mk r).2.instance_ ≠ none ∧
      (c = .example_1 ∨ c = .example_2 → c.call mk r = (r.instance_, r)) := by
  cases c <;>
    simp only [Strategy.call, GetInstance_example_1, GetInstance_example_2,
      GetInstance_example_3, GetInstance_example_4, Registry.construct] <;>
    repeat' split <;> simp_all

theorem buildsBy12_of_instance {σ : Type} (mk : σ) (calls : List Strategy) :
    ∀ r : Registry σ, r.instance_ ≠ none →
      buildsBy mk .example_1 r calls = 0 ∧ buildsBy mk .example_2 r calls = 0 := by
  induction calls with
  | nil => intro r _; exact ⟨rfl, rfl⟩
  | cons c rest ih =>
    intro r h
    obtain ⟨h1, h2⟩ := call_instance_some mk r c h
    obtain ⟨i1, i2⟩ := ih _ h1
    simp only [buildsBy, i1, i2, Nat.add_zero]
    constructor
    · split
      · rename_i hc
        rw [h2 (Or.inl hc)]
        simp
      · rfl
    · split
      · rename_i hc
        rw [h2 (Or.inr hc)]
        simp
      · rfl

theorem buildsBy12_le {σ : Type} (mk : σ) (calls : List Strategy) :
    ∀ r : Registry σ, buildsBy mk .example_1 r calls + buildsBy mk .example_2 r calls ≤ 1 := by
  induction calls with
  | nil => intro r; simp [buildsBy]
  | cons c rest ih =>
    intro r
    by_cases h : r.instance_ = none
    · have hih := ih (c.call mk r).2
      cases c
      · have hi : (Strategy.example_1.call mk r).2.instance_ ≠ none := by
          simp [Strategy.call, GetInstance_example_1, Registry.construct, h]
        obtain ⟨i1, i2⟩ := buildsBy12_of_instance mk rest _ hi
        have hlen : (Strategy.example_1.call mk r).2.heap.length - r.heap.length = 1 := by
          simp [Strategy.call, GetInstance_example_1, Registry.construct, h]
        simp [buildsBy, i1, i2, hlen]
      · have hi : (Strategy.example_2.call mk r).2.instance_ ≠ none := by
          simp [Strategy.call, GetInstance_example_2, Registry.construct, h]
        obtain ⟨i1, i2⟩ := buildsBy12_of_instance mk rest _ hi
        have hlen : (Strategy.example_2.call mk r).2.heap.length - r.heap.length = 1 := by
          simp [Strategy.call, GetInstance_example_2, Registry.construct, h]
        simp [buildsBy, i1, i2, hlen]
      · simpa [buildsBy] using hih
      · simpa [buildsBy] using hih
    · obtain ⟨i1, i2⟩ := buildsBy12_of_instance mk (c :: rest) r h
      simp [i1, i2]

theorem call_once {σ : Type} (mk : σ) (r : Registry σ) (c : Strategy) :
    (r.once = true → (c.call mk r).2.once = true ∧
      (c = .example_3 → c.call mk r = (r.instance_, r))) ∧
    (c = .example_3 → (c.call mk r).2.once = true) := by
  cases c <;>
    simp only [Strategy.call, GetInstance_example_1, GetInstance_example_2,
      GetInstance_example_3, GetInstance_example_4, Registry.construct] <;>
    repeat' split <;> simp_all

theorem buildsBy3_of_once {σ : Type} (mk : σ) (calls : List Strategy) :
    ∀ r : Registry σ, r.once = true → buildsBy mk .example_3 r calls = 0 := by
  induction calls with
  | nil => intro r _; rfl
  | cons c rest ih =>
    intro r h
    obtain ⟨h1, h2⟩ := (call_once mk r c).1 h
    simp only [buildsBy, ih _ h1, Nat.add_zero]
    split
    · rename_i hc
      rw [h2 hc]
      simp
    · rfl

theorem buildsBy3_le {σ : Type} (mk : σ) (calls : List Strategy) :
    ∀ r : Registry σ, buildsBy mk .example_3 r calls ≤ 1 := by
  induction calls with
  | nil => intro r; simp [buildsBy]
  | cons c rest ih =>
    intro r
    by_cases h : r.once = true
    · simp [buildsBy3_of_once mk (c :: rest) r h]
    · by_cases hc : c = .example_3
      · subst hc
        have ho := (call_once mk r .example_3).2 rfl
        have hlen : (Strategy.example_3.call mk r).2.heap.length - r.heap.length = 1 := by
          simp [Strategy.call, GetInstance_example_3, Registry.construct, h]
        simp [buildsBy, buildsBy3_of_once mk rest _ ho, hlen]
      · simpa [buildsBy, hc] using ih _

theorem runCalls_once_of_mem {σ : Type} (mk : σ) (calls : List Strategy) :
    ∀ r : Registry σ, (r.once = true ∨ Strategy.example_3 ∈ calls) →
      (runCalls mk r calls).2.once = true := by
  induction calls with
  | nil =>
    intro r h
    rcases h with h | h
    · exact h
    · cases h
  | cons c rest ih =>
    intro r h
    simp only [runCalls]
    apply ih
    rcases h with h | h
    · exact Or.inl ((call_once mk r c).1 h).1
    · rcases List.mem_cons.mp h with h | h
      · exact Or.inl ((call_once mk r c).2 h.symm)
      · exact Or.inr h

theorem call_flag_after4 {σ : Type} (mk : σ) (r : Registry σ) (h : r.atomicinz ≤ 1) :
    (Strategy.example_4.call mk r).2.atomicinz = 1 := by
  have hfl : r.atomicinz = 0 ∨ r.atomicinz = 1 := by omega
  rcases hfl with h0 | h1
  · simp [Strategy.call, GetInstance_example_4, Registry.construct, h0]
  · exact call_flag_one mk r _ h1

theorem runCalls_flag_of_mem {σ : Type} (mk : σ) (calls : List Strategy) :
    ∀ r : Registry σ, SeqInv mk r → (r.atomicinz = 1 ∨ Strategy.example_4 ∈ calls) →
      (runCalls mk r calls).2.atomicinz = 1 := by
  induction calls with
  | nil =>
    intro r _ h
    rcases h with h | h
    · exact h
    · cases h
  | cons c rest ih =>
    intro r hinv h
    simp only [runCalls]
    apply ih _ (hinv.call c).1
    rcases h with h | h
    · exact Or.inl (call_flag_one mk r c h)
    · rcases List.mem_cons.mp h with h | h
      · subst h
        exact Or.inl (call_flag_after4 mk r hinv.2.2.1)
      · exact Or.inr h

/-- In a registry with `once` used, the flag at `1` and `instance` set, every accessor returns
`instance` and changes nothing. -/
theorem call_settled {σ : Type} (mk : σ) (r : Registry σ) (c : Strategy)
    (ho : r.once = true) (hf : r.atomicinz = 1) (hi : r.instance_ ≠ none) :
    c.call mk r = (r.instance_, r) := by
  cases c <;>
    simp [Strategy.call, GetInstance_example_1, GetInstance_example_2,
      GetInstance_example_3, GetInstance_example_4, ho, hf, hi]

theorem runCalls_settled {σ : Type} (mk : σ) (r : Registry σ)
    (ho : r.once = true) (hf : r.atomicinz = 1) (hi : r.instance_ ≠ none)
    (calls : List Strategy) :
    runCalls mk r calls = (List.replicate calls.length r.instance_, r) := by
  induction calls with
  | nil => rfl
  | cons c rest ih =>
    simp [runCalls, call_settled mk r c ho hf hi, ih, List.replicate_succ]

/-- C18: over every finite sequential sequence of calls mixing the four accessors from the
initial state, the stores constructed are those constructed by the four accessors, at most
three in total: accessors 1 and 2 together construct at most one, and construct nothing when
`instance` is not `nil`; accessor 3 at most one; accessor 4 at most one. Once accessors 3 and
4 have each been called at least once, every later call of any accessor constructs nothing,
changes nothing and returns the same non-nil instance. -/
theorem C18_at_most_three_stores {σ : Type} (mk : σ) (calls : List Strategy) :
    (runCalls mk Registry.initial calls).2.heap.length =
      buildsBy mk .example_1 Registry.initial calls +
        buildsBy mk .example_2 Registry.initial calls +
        buildsBy mk .example_3 Registry.initial calls +
        buildsBy mk .example_4 Registry.initial calls ∧
    (runCalls mk Registry.initial calls).2.heap.length ≤ 3 ∧
    buildsBy mk .example_1 Registry.initial calls +
      buildsBy mk .example_2 Registry.initial calls ≤ 1 ∧
    buildsBy mk .example_3 Registry.initial calls ≤ 1 ∧
    buildsBy mk .example_4 Registry.initial calls ≤ 1 ∧
    (∀ r : Registry σ, r.instance_ ≠ none →
      GetInstance_example_1 mk r = (r.instance_, r) ∧
      GetInstance_example_2 mk r = (r.instance_, r)) ∧
    (Strategy.example_3 ∈ calls → Strategy.example_4 ∈ calls → ∀ later : List Strategy,
      (runCalls mk (runCalls mk Registry.initial calls).2 later).2
        = (runCalls mk Registry.initial calls).2 ∧
      (runCalls mk (runCalls mk Registry.initial calls).2 later).1
        = List.replicate later.length (runCalls mk Registry.initial calls).2.instance_ ∧
      (runCalls mk Registry.initial calls).2.instance_ ≠ none) := by
  have hsum := heap_length_eq_builds mk calls (Registry.initial : Registry σ)
  have h12 := buildsBy12_le mk calls (Registry.initial : Registry σ)
  have h3 := buildsBy3_le mk calls (Registry.initial : Registry σ)
  have h4 := buildsBy4_le mk calls (Registry.initial : Registry σ)
  have hlen0 : (Registry.initial : Registry σ).heap.length = 0 := rfl
  rw [hlen0, Nat.zero_add] at hsum
  refine ⟨hsum, by omega, h12, h3, h4, ?_, ?_⟩
  · intro r hr
    exact ⟨(call_instance_some mk r .example_1 hr).2 (Or.inl rfl),
      (call_instance_some mk r .example_2 hr).2 (Or.inr rfl)⟩
  · intro m3 m4 later
    have hinv := (SeqInv.runCalls calls _ (SeqInv.initial mk)).1
    have ho := runCalls_once_of_mem mk calls Registry.initial (Or.inr m3)
    have hf := runCalls_flag_of_mem mk calls Registry.initial (SeqInv.initial mk) (Or.inr m4)
    have hi := hinv.1 ho
    rw [runCalls_settled mk _ ho hf hi later]
    exact ⟨rfl, rfl, hi⟩

/-! ## The counter demonstrations -/

theorem wrapInt_of_fits (bits : Nat) (x : Int) (hb : 0 < bits) (h0 : 0 ≤ x)
    (h1 : x < 2 ^ (bits - 1)) : wrapInt bits x = x := by
  have hp : (2 : Int) ^ bits = 2 * 2 ^ (bits - 1) := by
    obtain ⟨b, rfl⟩ : ∃ b, bits = b + 1 := ⟨bits - 1, by omega⟩
    simp [pow_succ, mul_comm]
  have hpos : (0 : Int) < 2 ^ (bits - 1) := by positivity
  unfold wrapInt
  rw [Int.emod_eq_of_lt (by omega) (by omega)]
  omega

theorem fits_32 (x : Int) (h : x ≤ 50000000) : x < 2 ^ (32 - 1) := by
  norm_num
  omega

theorem fits_64 (x : Int) (h : x ≤ 50000000) : x < 2 ^ (64 - 1) := by
  norm_num
  omega

/-- A loop whose body ignores the loop variable and adds `d` to the counter adds `d` once per
iteration, as long as the total fits. -/
theorem foldl_add_const {α : Type} (bits : Nat) (f : Int → Int) (d : Nat)
    (hf : ∀ c : Int, 0 ≤ c → c + d < 2 ^ (bits - 1) → f c = c + d) (l : List α) :
    ∀ c : Int, 0 ≤ c → c + l.length * d < 2 ^ (bits - 1) →
      l.foldl (fun c _ => f c) c = c + l.length * d := by
  induction l with
  | nil => intro c _ _; simp
  | cons a l ih =>
    intro c h0 h1
    have hd : (0 : Int) ≤ (l.length : Int) * d := by positivity
    have hlen : (((a :: l).length : Nat) : Int) * d = d + l.length * d := by
      simp only [List.length_cons]
      push_cast
      ring
    rw [hlen] at h1 ⊢
    have hfc : f c = c + d := hf c h0 (by omega)
    simp only [List.foldl_cons, hfc]
    rw [ih (c + d) (by positivity) (by omega)]
    ring

theorem sequencialInner_eq (bits n : Nat) (hb : 0 < bits) (c : Int) (h0 : 0 ≤ c)
    (h1 : c + n < 2 ^ (bits - 1)) : sequencialInner bits n c = c + n := by
  have h := foldl_add_const bits (fun c => wrapInt bits (c + 1)) 1
    (fun c hc hlt => wrapInt_of_fits bits _ hb (by omega) (by simpa using hlt))
    (List.range n) c h0 (by simpa using h1)
  simpa [sequencialInner] using h

theorem sequencialLoops_eq (bits workers n : Nat) (hb : 0 < bits)
    (h1 : (workers : Int) * n < 2 ^ (bits - 1)) :
    sequencialLoops bits workers n = (workers : Int) * n := by
  have h := foldl_add_const bits (fun c => sequencialInner bits n c) n
    (fun c hc hlt => sequencialInner_eq bits n hb c hc hlt)
    (List.range' 1 workers) 0 (le_refl _) (by simpa using h1)
  simpa [sequencialLoops] using h

/-- C11: the sequential counter ends at exactly 50,000,000 on both widths of Go's `int`, and
in general `workers` rounds of `n` increments from 0 yield exactly `workers * n` whenever that
product fits the `int` type, so no overflow occurs at these sizes. -/
theorem C11_sequential_counter_exact :
    exemploSequencial 64 = 50000000 ∧ exemploSequencial 32 = 50000000 ∧
    (∀ bits workers n : Nat, 0 < bits → (workers : Int) * n < 2 ^ (bits - 1) →
      sequencialLoops bits workers n = (workers : Int) * n) ∧
    ((5 : Int) * 10000000 < 2 ^ (32 - 1) ∧ (5 : Int) * 10000000 < 2 ^ (64 - 1)) := by
  refine ⟨?_, ?_, fun bits workers n hb h => sequencialLoops_eq bits workers n hb h,
    by norm_num, by norm_num⟩
  · rw [exemploSequencial, sequencialLoops_eq 64 5 10000000 (by norm_num) (by norm_num)]
    norm_num
  · rw [exemploSequencial, sequencialLoops_eq 32 5 10000000 (by norm_num) (by norm_num)]
    norm_num

theorem sum_map_set {α : Type} (f : α → Nat) (l : List α) (i : Nat) (a b : α)
    (hi : l[i]? = some a) : ((l.set i b).map f).sum + f a = (l.map f).sum + f b := by
  induction l generalizing i with
  | nil => simp at hi
  | cons x l ih =>
    cases i with
    | zero =>
      simp only [List.getElem?_cons_zero, Option.some.injEq] at hi
      subst hi
      simp only [List.set_cons_zero, List.map_cons, List.sum_cons]
      omega
    | succ i =>
      simp only [List.getElem?_cons_succ] at hi
      have := ih i hi
      simp only [List.set_cons_succ, List.map_cons, List.sum_cons]
      omega

theorem le_sum_map_of_getElem {α : Type} (f : α → Nat) (l : List α) (i : Nat) (a : α)
    (hi : l[i]? = some a) : f a ≤ (l.map f).sum := by
  induction l generalizing i with
  | nil => simp at hi
  | cons x l ih =>
    cases i with
    | zero =>
      simp only [List.getElem?_cons_zero, Option.some.injEq] at hi
      subst hi
      simp
    | succ i =>
      simp only [List.getElem?_cons_succ] at hi
      have := ih i hi
      simp only [List.map_cons, List.sum_cons]
      omega

theorem raceStep_some {bits : Nat} {w w1 : RaceWorld} {i : Nat}
    (h : raceStep bits w i = some w1) :
    ∃ wk c2 wk2, w.workers[i]? = some wk ∧ wk.fire bits w.counter = some (c2, wk2) ∧
      w1 = { counter := c2, workers := w.workers.set i wk2 } := by
  unfold raceStep at h
  cases hwk : w.workers[i]? with
  | none => simp [hwk] at h
  | some wk =>
    cases hf : wk.fire bits w.counter with
    | none => simp [hwk, hf] at h
    | some out =>
      simp only [hwk, hf, Option.some.injEq] at h
      exact ⟨wk, out.1, out.2, rfl, hf, h.symm⟩

/-- Every step of a worker keeps `RaceInv`. -/
theorem RaceInv.race_after_step {bits : Nat} {total : Int} {w w1 : RaceWorld} {i : Nat}
    (hb : 0 < bits) (hfit : total < 2 ^ (bits - 1)) (hinv : RaceInv total w)
    (h : raceStep bits w i = some w1) : RaceInv total w1 := by
  obtain ⟨wk, c2, wk2, hwk, hf, rfl⟩ := raceStep_some h
  obtain ⟨h0, h1, h2⟩ := hinv
  have hmem : wk ∈ w.workers := List.mem_iff_getElem?.mpr ⟨i, hwk⟩
  have hsum := sum_map_set RaceWorker.todo w.workers i wk wk2 hwk
  have hle := le_sum_map_of_getElem RaceWorker.todo w.workers i wk hwk
  unfold RaceWorker.fire at hf
  split at hf
  · cases hf
  · rename_i htodo
    cases htemp : wk.temp with
    | none =>
      simp only [htemp, Option.some.injEq, Prod.mk.injEq] at hf
      obtain ⟨rfl, rfl⟩ := hf
      simp only at hsum
      have hts : ((w.workers.set i { todo := wk.todo, temp := some w.counter }).map
          RaceWorker.todo).sum = (w.workers.map RaceWorker.todo).sum := by omega
      refine ⟨h0, ?_, ?_⟩
      · unfold RaceWorld.todoSum at h1 ⊢
        dsimp only
        rw [hts]
        exact h1
      · intro x hx t ht
        unfold RaceWorld.todoSum at h1 h2 ⊢
        dsimp only at hx ⊢
        rw [hts]
        rcases List.mem_or_eq_of_mem_set hx with hx | rfl
        · exact h2 x hx t ht
        · simp only [Option.some.injEq] at ht
          subst ht
          exact ⟨h0, h1⟩
    | some t =>
      simp only [htemp, Option.some.injEq, Prod.mk.injEq] at hf
      obtain ⟨rfl, rfl⟩ := hf
      simp only at hsum
      obtain ⟨ht0, ht1⟩ := h2 wk hmem t htemp
      simp only [RaceWorld.todoSum] at h1 ht1 h2
      have hw : wrapInt bits (t + 1) = t + 1 :=
        wrapInt_of_fits bits _ hb (by omega) (by omega)
      have hts : (((w.workers.set i { todo := wk.todo - 1, temp := none }).map
          RaceWorker.todo).sum : Int) = (w.workers.map RaceWorker.todo).sum - 1 := by omega
      refine ⟨by dsimp only; rw [hw]; omega, ?_, ?_⟩
      · unfold RaceWorld.todoSum
        dsimp only
        rw [hw, hts]
        omega
      · intro x hx t2 ht2
        unfold RaceWorld.todoSum
        dsimp only at hx ⊢
        rw [hts]
        rcases List.mem_or_eq_of_mem_set hx with hx | rfl
        · obtain ⟨a, b⟩ := h2 x hx t2 ht2
          exact ⟨a, by omega⟩
        · cases ht2

theorem RaceInv.race_start (workers n : Nat) :
    RaceInv ((workers : Int) * n) (raceStart workers n) := by
  refine ⟨le_refl _, ?_, ?_⟩
  · simp [raceStart, RaceWorld.todoSum, List.sum_replicate]
  · intro wk hwk t ht
    simp only [raceStart, List.mem_replicate] at hwk
    rw [hwk.2] at ht
    cases ht

theorem RaceInv.race_run {bits : Nat} {total : Int} (hb : 0 < bits)
    (hfit : total < 2 ^ (bits - 1)) (sched : List Nat) :
    ∀ w : RaceWorld, RaceInv total w → RaceInv total (raceRun bits w sched) := by
  induction sched with
  | nil => intro w h; exact h
  | cons i rest ih =>
    intro w h
    simp only [raceRun]
    cases hs : raceStep bits w i with
    | none => exact ih w h
    | some w1 => exact ih w1 (h.race_after_step hb hfit hs)

/-- Every step of the racy counter uses up fuel, so no interleaving runs forever. -/
theorem raceStep_fuel {bits : Nat} {w w1 : RaceWorld} {i : Nat}
    (h : raceStep bits w i = some w1) : w1.fuel < w.fuel := by
  obtain ⟨wk, c2, wk2, hwk, hf, rfl⟩ := raceStep_some h
  have hsum := sum_map_set RaceWorker.rank w.workers i wk wk2 hwk
  have hrank : wk2.rank < wk.rank := by
    unfold RaceWorker.fire at hf
    split at hf
    · cases hf
    · rename_i htodo
      cases htemp : wk.temp with
      | none =>
        simp only [htemp, Option.some.injEq, Prod.mk.injEq] at hf
        obtain ⟨-, rfl⟩ := hf
        simp [RaceWorker.rank, htemp]
        omega
      | some t =>
        simp only [htemp, Option.some.injEq, Prod.mk.injEq] at hf
        obtain ⟨-, rfl⟩ := hf
        simp [RaceWorker.rank, htemp]
        omega
  unfold RaceWorld.fuel
  dsimp only
  omega

/-- While a worker has iterations left, some worker can take a step. -/
theorem race_progress (bits : Nat) (w : RaceWorld) (h : w.finished = false) :
    ∃ i, i < w.workers.length ∧ (raceStep bits w i).isSome = true := by
  have hex : ∃ wk ∈ w.workers, wk.todo ≠ 0 := by
    by_contra hcon
    have : w.finished = true := by
      simp only [RaceWorld.finished, List.all_eq_true, beq_iff_eq]
      intro x hx
      by_contra hne
      exact hcon ⟨x, hx, hne⟩
    rw [this] at h
    cases h
  obtain ⟨wk, hmem, htodo⟩ := hex
  obtain ⟨i, hi⟩ := List.mem_iff_getElem?.mp hmem
  refine ⟨i, (List.getElem?_eq_some.mp hi).1, ?_⟩
  cases htemp : wk.temp <;> simp [raceStep, hi, RaceWorker.fire, htodo, htemp]

theorem race_complete (bits : Nat) (n : Nat) :
    ∀ w : RaceWorld, w.fuel ≤ n → ∃ more, (raceRun bits w more).finished = true := by
  induction n with
  | zero =>
    intro w hfuel
    cases hd : w.finished with
    | true => exact ⟨[], hd⟩
    | false =>
      obtain ⟨i, -, hi⟩ := race_progress bits w hd
      obtain ⟨w1, hw1⟩ := Option.isSome_iff_exists.mp hi
      have := raceStep_fuel hw1
      omega
  | succ n ih =>
    intro w hfuel
    cases hd : w.finished with
    | true => exact ⟨[], hd⟩
    | false =>
      obtain ⟨i, -, hi⟩ := race_progress bits w hd
      obtain ⟨w1, hw1⟩ := Option.isSome_iff_exists.mp hi
      have hlt := raceStep_fuel hw1
      obtain ⟨more, hmore⟩ := ih w1 (by omega)
      exact ⟨i :: more, by simpa [raceRun, hw1] using hmore⟩

theorem raceRun_length (bits : Nat) (sched : List Nat) :
    ∀ w : RaceWorld, (raceRun bits w sched).workers.length = w.workers.length := by
  induction sched with
  | nil => intro w; rfl
  | cons i rest ih =>
    intro w
    simp only [raceRun]
    cases hs : raceStep bits w i with
    | none => simpa using ih w
    | some w1 =>
      obtain ⟨wk, c2, wk2, -, -, rfl⟩ := raceStep_some hs
      rw [ih]
      simp

/-- C14: the racy shared counter on either width of Go's `int`, under every interleaving
`sched` of the 5 workers' reads `temp := counter` and writes `counter = temp + 1`: the counter
is never negative and never exceeds 50,000,000 less the iterations still to run, so the
result is at most 50,000,000, the reported lost-increment count `50000000 - counter` is never
negative and result plus lost is 50,000,000. While a worker has iterations left some worker
can move, every step uses up fuel, and the interleaving can be continued until all workers
have finished. -/
theorem C14_racy_counter_bounded (bits : Nat) (hbits : bits = 32 ∨ bits = 64)
    (sched : List Nat) :
    0 ≤ (raceRun bits (raceStart 5 10000000) sched).counter ∧
    (raceRun bits (raceStart 5 10000000) sched).counter
      + (raceRun bits (raceStart 5 10000000) sched).todoSum ≤ 50000000 ∧
    (raceRun bits (raceStart 5 10000000) sched).counter ≤ 50000000 ∧
    0 ≤ lostIncrements bits (raceRun bits (raceStart 5 10000000) sched).counter ∧
    (raceRun bits (raceStart 5 10000000) sched).counter
      + lostIncrements bits (raceRun bits (raceStart 5 10000000) sched).counter = 50000000 ∧
    ((raceRun bits (raceStart 5 10000000) sched).finished = false →
      ∃ i, i < 5 ∧ (raceStep bits (raceRun bits (raceStart 5 10000000) sched) i).isSome = true) ∧
    (∀ (i : Nat) (w1 : RaceWorld),
      raceStep bits (raceRun bits (raceStart 5 10000000) sched) i = some w1 →
        w1.fuel < (raceRun bits (raceStart 5 10000000) sched).fuel) ∧
    (∃ more,
      (raceRun bits (raceRun bits (raceStart 5 10000000) sched) more).finished = true) := by
  have hb : 0 < bits := by rcases hbits with rfl | rfl <;> norm_num
  have hfit : ∀ x : Int, x ≤ 50000000 → x < 2 ^ (bits - 1) := by
    rcases hbits with rfl | rfl
    · exact fits_32
    · exact fits_64
  have hstart : RaceInv 50000000 (raceStart 5 10000000) := by
    have h := RaceInv.race_start 5 10000000
    norm_num at h
    exact h
  obtain ⟨h0, h1, -⟩ := RaceInv.race_run hb (hfit _ (le_refl _)) sched _ hstart
  have hle : (raceRun bits (raceStart 5 10000000) sched).counter ≤ 50000000 := by
    have : (0 : Int) ≤ (raceRun bits (raceStart 5 10000000) sched).todoSum := by positivity
    omega
  have hlost : lostIncrements bits (raceRun bits (raceStart 5 10000000) sched).counter
      = 50000000 - (raceRun bits (raceStart 5 10000000) sched).counter :=
    wrapInt_of_fits bits _ hb (by omega) (hfit _ (by omega))
  have hlen : (raceRun bits (raceStart 5 10000000) sched).workers.length = 5 := by
    rw [raceRun_length]
    simp [raceStart]
  refine ⟨h0, h1, hle, by rw [hlost]; omega, by rw [hlost]; omega, fun hd => ?_,
    fun i w1 h => raceStep_fuel h, race_complete bits _ _ (le_refl _)⟩
  obtain ⟨i, hi, hstep⟩ := race_progress bits _ hd
  exact ⟨i, hlen ▸ hi, hstep⟩

theorem C14_racy_counter_bounded_witness :
    ((64 = 32 ∨ 64 = 64) ∧
      (raceRun 64 (raceStart 5 10000000) [0, 1, 0, 1]).counter = 1 ∧
      (raceRun 64 (raceStart 5 10000000) [0, 1, 0, 1]).todoSum = 49999998) ∧
    (0 ≤ (raceRun 64 (raceStart 5 10000000) [0, 1, 0, 1]).counter ∧
    (raceRun 64 (raceStart 5 10000000) [0, 1, 0, 1]).counter
      + (raceRun 64 (raceStart 5 10000000) [0, 1, 0, 1]).todoSum ≤ 50000000 ∧
    (raceRun 64 (raceStart 5 10000000) [0, 1, 0, 1]).counter ≤ 50000000 ∧
    0 ≤ lostIncrements 64 (raceRun 64 (raceStart 5 10000000) [0, 1, 0, 1]).counter ∧
    (raceRun 64 (raceStart 5 10000000) [0, 1, 0, 1]).counter
      + lostIncrements 64 (raceRun 64 (raceStart 5 10000000) [0, 1, 0, 1]).counter = 50000000 ∧
    ((raceRun 64 (raceStart 5 10000000) [0, 1, 0, 1]).finished = false →
      ∃ i, i < 5 ∧ (raceStep 64 (raceRun 64 (raceStart 5 10000000) [0, 1, 0, 1]) i).isSome = true) ∧
    (∀ (i : Nat) (w1 : RaceWorld),
      raceStep 64 (raceRun 64 (raceStart 5 10000000) [0, 1, 0, 1]) i = some w1 →
        w1.fuel < (raceRun 64 (raceStart 5 10000000) [0, 1, 0, 1]).fuel) ∧
    (∃ more,
      (raceRun 64 (raceRun 64 (raceStart 5 10000000) [0, 1, 0, 1]) more).finished = true)) :=
  ⟨⟨by decide, by decide, by decide⟩,
    C14_racy_counter_bounded 64 (by decide) [0, 1, 0, 1]⟩

theorem sum_set (l : List Nat) (i : Nat) (a b : Nat) (hi : l[i]? = some a) :
    (l.set i b).sum + a = l.sum + b := by
  have h := sum_map_set id l i a b hi
  simpa using h

theorem sum_eq_zero_of_all (l : List Nat) (h : l.all (fun k => k == 0) = true) : l.sum = 0 := by
  induction l with
  | nil => rfl
  | cons a l ih =>
    simp only [List.all_cons, Bool.and_eq_true, beq_iff_eq] at h
    simp [h.1, ih h.2]

theorem exists_ne_zero_of_not_all (l : List Nat) (h : ¬ l.all (fun k => k == 0) = true) :
    ∃ (i : Nat) (k : Nat), l[i]? = some k ∧ k ≠ 0 := by
  have hex : ∃ k ∈ l, k ≠ 0 := by
    by_contra hcon
    apply h
    simp only [List.all_eq_true, beq_iff_eq]
    intro x hx
    by_contra hne
    exact hcon ⟨x, hx, hne⟩
  obtain ⟨k, hk, hne⟩ := hex
  obtain ⟨i, hi⟩ := List.mem_iff_getElem?.mp hk
  exact ⟨i, k, hi, hne⟩

/-- Every move keeps `ChanInv` and uses up fuel. -/
theorem ChanInv.chan_after_step {bits : Nat} {total : Int} {w w1 : ChanWorld} {a : ChanAct}
    (hb : 0 < bits) (hfit : total < 2 ^ (bits - 1)) (hinv : ChanInv total w)
    (h : chanStep bits w a = some w1) : ChanInv total w1 ∧ w1.fuel < w.fuel := by
  obtain ⟨h0, h1, h2, h3, h4⟩ := hinv
  cases a with
  | send i =>
    simp only [chanStep] at h
    cases hk : w.senders[i]? with
    | none => simp [hk] at h
    | some k =>
      simp only [hk] at h
      split at h
      · rename_i hg
        obtain ⟨hk0, hacc, hcl⟩ := hg
        simp only [Option.some.injEq] at h
        subst h
        have hs := sum_set w.senders i k (k - 1) hk
        have hle := le_sum_map_of_getElem id w.senders i k hk
        simp only [List.map_id, id] at hle
        simp only [ChanWorld.pending, ChanWorld.todoSum, hacc, reduceCtorEq, if_false] at h1
        refine ⟨⟨h0, ?_, ?_, ?_, ?_⟩, ?_⟩
        · simp only [ChanWorld.pending, ChanWorld.todoSum]
          simp only [if_true]
          omega
        · intro hc
          rw [hcl] at hc
          cases hc
        · intro hc
          simp at hc
        · simp only [h4, hacc]
          simp
        · simp only [ChanWorld.fuel, ChanWorld.todoSum, hacc]
          omega
      · cases h
  | accumulate =>
    simp only [chanStep] at h
    split at h
    · rename_i hacc
      simp only [Option.some.injEq] at h
      subst h
      simp only [ChanWorld.pending, hacc, if_true] at h1
      have hw : wrapInt bits (w.counter + 1) = w.counter + 1 :=
        wrapInt_of_fits bits _ hb (by omega) (by
          have : (0 : Int) ≤ w.todoSum := by positivity
          omega)
      refine ⟨⟨?_, ?_, h2, ?_, ?_⟩, ?_⟩
      · simp only [hw]
        omega
      · simp only [ChanWorld.pending, ChanWorld.todoSum, hw] at h1 ⊢
        simp only [if_false, reduceCtorEq]
        omega
      · intro hc
        simp at hc
      · simp only [h4, hacc]
        simp
      · simp only [ChanWorld.fuel, ChanWorld.todoSum, hacc]
        omega
    · cases h
  | closeCh =>
    simp only [chanStep] at h
    split at h
    · rename_i hg
      obtain ⟨hall, hcl⟩ := hg
      simp only [Option.some.injEq] at h
      subst h
      refine ⟨⟨h0, h1, fun _ => sum_eq_zero_of_all _ hall, fun _ => rfl, h4⟩, ?_⟩
      simp only [ChanWorld.fuel, ChanWorld.todoSum, hcl]
      simp
    · cases h
  | endRange =>
    simp only [chanStep] at h
    split at h
    · rename_i hg
      obtain ⟨hacc, hcl⟩ := hg
      simp only [Option.some.injEq] at h
      subst h
      refine ⟨⟨h0, ?_, h2, fun _ => hcl, ?_⟩, ?_⟩
      · simp only [ChanWorld.pending, ChanWorld.todoSum, hacc] at h1 ⊢
        simpa using h1
      · simp only [h4, hacc]
        simp
      · simp only [ChanWorld.fuel, ChanWorld.todoSum, hacc]
        omega
    · cases h
  | deliver =>
    simp only [chanStep] at h
    split at h
    · rename_i hg
      obtain ⟨hacc, hcl⟩ := hg
      simp only [Option.some.injEq] at h
      subst h
      refine ⟨⟨h0, ?_, h2, fun _ => hcl, ?_⟩, ?_⟩
      · simp only [ChanWorld.pending, ChanWorld.todoSum, hacc] at h1 ⊢
        simpa using h1
      · simp
      · simp only [ChanWorld.fuel, ChanWorld.todoSum, hacc]
        omega
    · cases h

theorem ChanInv.chan_start (workers n : Nat) :
    ChanInv ((workers : Int) * n) (chanStart workers n) := by
  refine ⟨le_refl _, ?_, ?_, ?_, rfl⟩
  · simp [chanStart, ChanWorld.pending, ChanWorld.todoSum, List.sum_replicate]
  · intro h
    cases h
  · intro h
    rcases h with h | h <;> cases h

theorem ChanInv.chan_run {bits : Nat} {total : Int} (hb : 0 < bits)
    (hfit : total < 2 ^ (bits - 1)) (sched : List ChanAct) :
    ∀ w : ChanWorld, ChanInv total w → ChanInv total (chanRun bits w sched) := by
  induction sched with
  | nil => intro w h; exact h
  | cons a rest ih =>
    intro w h
    simp only [chanRun]
    cases hs : chanStep bits w a with
    | none => exact ih w h
    | some w1 => exact ih w1 (h.chan_after_step hb hfit hs).1

/-- A delivered result is the total number of signals. -/
theorem ChanInv.result {total : Int} {w : ChanWorld} (hinv : ChanInv total w) {v : Int}
    (h : w.finalResult = some v) : v = total := by
  obtain ⟨-, h1, h2, h3, h4⟩ := hinv
  rw [h4] at h
  split at h
  · rename_i hacc
    have hsum := h2 (h3 (Or.inr hacc))
    simp only [Option.some.injEq] at h
    simp only [ChanWorld.pending, hacc, hsum, reduceCtorEq, if_false] at h1
    omega
  · cases h

/-- No deadlock: until main has received the result, some move is possible. -/
theorem ChanInv.chan_progress {total : Int} {w : ChanWorld} (bits : Nat) (hinv : ChanInv total w)
    (h : w.finalResult = none) : ∃ a, (chanStep bits w a).isSome = true := by
  obtain ⟨-, -, h2, h3, h4⟩ := hinv
  cases hacc : w.acc with
  | incr => exact ⟨.accumulate, by simp [chanStep, hacc]⟩
  | report => exact ⟨.deliver, by simp [chanStep, hacc, h3 (Or.inl hacc)]⟩
  | exited =>
    rw [h4, hacc] at h
    simp at h
  | recv =>
    cases hcl : w.closed with
    | true => exact ⟨.endRange, by simp [chanStep, hacc, hcl]⟩
    | false =>
      by_cases hall : w.senders.all (fun k => k == 0) = true
      · exact ⟨.closeCh, by simp only [chanStep, hall, hcl, and_self, if_true, Option.isSome]⟩
      · obtain ⟨i, k, hi, hk⟩ := exists_ne_zero_of_not_all _ hall
        exact ⟨.send i, by simp [chanStep, hi, hk, hacc, hcl]⟩

/-- Every state satisfying the invariant can be driven to the delivery of the result. -/
theorem ChanInv.chan_complete {bits : Nat} {total : Int} (hb : 0 < bits)
    (hfit : total < 2 ^ (bits - 1)) (n : Nat) :
    ∀ w : ChanWorld, w.fuel ≤ n → ChanInv total w →
      ∃ more, (chanRun bits w more).finalResult = some total := by
  induction n with
  | zero =>
    intro w hfuel hinv
    cases hr : w.finalResult with
    | some v => exact ⟨[], by rw [← hinv.result hr]; exact hr⟩
    | none =>
      obtain ⟨a, ha⟩ := hinv.chan_progress bits hr
      obtain ⟨w1, hw1⟩ := Option.isSome_iff_exists.mp ha
      have := (hinv.chan_after_step hb hfit hw1).2
      omega
  | succ n ih =>
    intro w hfuel hinv
    cases hr : w.finalResult with
    | some v => exact ⟨[], by rw [← hinv.result hr]; exact hr⟩
    | none =>
      obtain ⟨a, ha⟩ := hinv.chan_progress bits hr
      obtain ⟨w1, hw1⟩ := Option.isSome_iff_exists.mp ha
      obtain ⟨hinv1, hlt⟩ := hinv.chan_after_step hb hfit hw1
      obtain ⟨more, hmore⟩ := ih w1 (by omega) hinv1
      exact ⟨a :: more, by simpa [chanRun, hw1] using hmore⟩

/-- C13: the channel-serialized counter on either width of Go's `int`, under every
interleaving `sched` of the 5 workers (10,000,000 sends each), the counting goroutine and
main: the counter plus the signal being counted equals the number of signals sent so far; the
channel is closed only when no send is left; the value main receives from `doneCh` is exactly
50,000,000, the total number of signals sent. Until main has received it some move is
possible, every move uses up fuel, and the interleaving can be continued until main receives
50,000,000. -/
theorem C13_channel_counter_exact (bits : Nat) (hbits : bits = 32 ∨ bits = 64)
    (sched : List ChanAct) :
    (chanRun bits (chanStart 5 10000000) sched).counter
        + (chanRun bits (chanStart 5 10000000) sched).pending
      = 50000000 - (chanRun bits (chanStart 5 10000000) sched).todoSum ∧
    ((chanRun bits (chanStart 5 10000000) sched).closed = true →
      (chanRun bits (chanStart 5 10000000) sched).todoSum = 0) ∧
    (∀ v : Int, (chanRun bits (chanStart 5 10000000) sched).finalResult = some v →
      v = 50000000) ∧
    ((chanRun bits (chanStart 5 10000000) sched).finalResult = none →
      ∃ a, (chanStep bits (chanRun bits (chanStart 5 10000000) sched) a).isSome = true) ∧
    (∀ (a : ChanAct) (w1 : ChanWorld),
      chanStep bits (chanRun bits (chanStart 5 10000000) sched) a = some w1 →
        w1.fuel < (chanRun bits (chanStart 5 10000000) sched).fuel) ∧
    (∃ more, (chanRun bits (chanRun bits (chanStart 5 10000000) sched) more).finalResult
      = some 50000000) := by
  have hb : 0 < bits := by rcases hbits with rfl | rfl <;> norm_num
  have hfit : (50000000 : Int) < 2 ^ (bits - 1) := by
    rcases hbits with rfl | rfl
    · exact fits_32 _ (le_refl _)
    · exact fits_64 _ (le_refl _)
  have hstart : ChanInv 50000000 (chanStart 5 10000000) := by
    have h := ChanInv.chan_start 5 10000000
    norm_num at h
    exact h
  have hinv := ChanInv.chan_run hb hfit sched _ hstart
  refine ⟨?_, hinv.2.2.1, fun v hv => hinv.result hv, fun hr => hinv.chan_progress bits hr,
    fun a w1 h => (hinv.chan_after_step hb hfit h).2, ChanInv.chan_complete hb hfit _ _ (le_refl _) hinv⟩
  have h1 := hinv.2.1
  omega

theorem C13_channel_counter_exact_witness :
    ((64 = 32 ∨ 64 = 64) ∧
      (chanRun 64 (chanStart 5 10000000) [.send 3, .send 1, .accumulate, .send 1]).counter = 1 ∧
      (chanRun 64 (chanStart 5 10000000) [.send 3, .send 1, .accumulate, .send 1]).todoSum
        = 49999998) ∧
    ((chanRun 64 (chanStart 5 10000000) [.send 3, .send 1, .accumulate, .send 1]).counter
        + (chanRun 64 (chanStart 5 10000000) [.send 3, .send 1, .accumulate, .send 1]).pending
      = 50000000
        - (chanRun 64 (chanStart 5 10000000) [.send 3, .send 1, .accumulate, .send 1]).todoSum ∧
    ((chanRun 64 (chanStart 5 10000000) [.send 3, .send 1, .accumulate, .send 1]).closed = true →
      (chanRun 64 (chanStart 5 10000000) [.send 3, .send 1, .accumulate, .send 1]).todoSum = 0) ∧
    (∀ v : Int,
      (chanRun 64 (chanStart 5 10000000) [.send 3, .send 1, .accumulate, .send 1]).finalResult
        = some v → v = 50000000) ∧
    ((chanRun 64 (chanStart 5 10000000) [.send 3, .send 1, .accumulate, .send 1]).finalResult
        = none →
      ∃ a, (chanStep 64
        (chanRun 64 (chanStart 5 10000000) [.send 3, .send 1, .accumulate, .send 1]) a).isSome
          = true) ∧
    (∀ (a : ChanAct) (w1 : ChanWorld),
      chanStep 64 (chanRun 64 (chanStart 5 10000000) [.send 3, .send 1, .accumulate, .send 1]) a
        = some w1 →
        w1.fuel
          < (chanRun 64 (chanStart 5 10000000) [.send 3, .send 1, .accumulate, .send 1]).fuel) ∧
    (∃ more,
      (chanRun 64 (chanRun 64 (chanStart 5 10000000) [.send 3, .send 1, .accumulate, .send 1])
        more).finalResult = some 50000000)) :=
  ⟨⟨by decide, by decide, by decide⟩,
    C13_channel_counter_exact 64 (by decide) [.send 3, .send 1, .accumulate, .send 1]⟩

/-- A complete run of the channel counter with 2 workers of 1 send each: main receives 2. -/
theorem chanRun_small_complete :
    (chanRun 64 (chanStart 2 1)
      [.send 0, .accumulate, .send 1, .closeCh, .accumulate, .closeCh, .endRange,
        .deliver]).finalResult = some 2 := by
  decide

/-- A complete run of the racy counter with 2 workers of 1 iteration each in which one
increment is lost: both read 0, both write 1. -/
theorem raceRun_small_lost_update :
    (raceRun 64 (raceStart 2 1) [0, 1, 0, 1]).counter = 1 ∧
    (raceRun 64 (raceStart 2 1) [0, 1, 0, 1]).finished = true := by
  decide

/-! ## The shard-and-aggregate counter -/

theorem doneCount_le_length (l : List ShardPc) : (l.map ShardPc.doneFlag).sum ≤ l.length := by
  induction l with
  | nil => simp
  | cons a l ih =>
    have ha : a.doneFlag ≤ 1 := by cases a <;> simp [ShardPc.doneFlag]
    simp only [List.map_cons, List.sum_cons, List.length_cons]
    omega

theorem doneCount_of_all (l : List ShardPc) (h : l.all ShardPc.isFinished = true) :
    (l.map ShardPc.doneFlag).sum = l.length := by
  induction l with
  | nil => rfl
  | cons a l ih =>
    simp only [List.all_cons, Bool.and_eq_true] at h
    have ha : a.doneFlag = 1 := by
      cases a <;> simp_all [ShardPc.isFinished, ShardPc.doneFlag]
    simp only [List.map_cons, List.sum_cons, List.length_cons, ha, ih h.2]
    omega

theorem doneCount_lt_of_unfinished (l : List ShardPc) (i : Nat) (pc : ShardPc)
    (hi : l[i]? = some pc) (hpc : pc.doneFlag = 0) :
    (l.map ShardPc.doneFlag).sum < l.length := by
  have h := sum_map_set ShardPc.doneFlag l i pc .finished hi
  have hle := doneCount_le_length (l.set i .finished)
  have hfin : ShardPc.doneFlag .finished = 1 := rfl
  rw [List.length_set] at hle
  rw [hfin, hpc] at h
  omega

theorem exists_unfinished (l : List ShardPc) (h : ¬ l.all ShardPc.isFinished = true) :
    ∃ (i : Nat) (pc : ShardPc), l[i]? = some pc ∧ pc.isFinished = false := by
  have hex : ∃ pc ∈ l, pc.isFinished = false := by
    by_contra hcon
    apply h
    simp only [List.all_eq_true]
    intro x hx
    cases hf : x.isFinished with
    | true => rfl
    | false => exact absurd ⟨x, hx, hf⟩ hcon
  obtain ⟨pc, hmem, hpc⟩ := hex
  obtain ⟨i, hi⟩ := List.mem_iff_getElem?.mp hmem
  exact ⟨i, pc, hi, hpc⟩

theorem ShardInv.shard_start (workers n : Nat) : ShardInv workers n (shardStart workers) := by
  refine ⟨by simp [shardStart], ?_, ?_, le_refl _, ?_, ?_, ?_, ?_, ?_⟩
  · intro pc hpc
    simp only [shardStart, List.mem_replicate] at hpc
    rw [hpc.2]
    simp [ShardPc.ok]
  · intro v hv
    simp [shardStart] at hv
  · simp [shardStart, ShardWorld.doneCount, ShardPc.doneFlag]
  · simp [shardStart]
  · intro h
    simp [shardStart] at h
  · intro h
    simp [shardStart] at h
  · intro h
    simp [shardStart] at h

theorem shardStep_worker {bits cap n : Nat} {w w1 : ShardWorld} {i : Nat}
    (h : shardStep bits cap n w (.worker i) = some w1) :
    ∃ pc pc2 ch, w.workers[i]? = some pc ∧ pc.fire cap n w = some (pc2, ch) ∧
      w1 = { w with workers := w.workers.set i pc2, channel := ch } := by
  simp only [shardStep] at h
  cases hpc : w.workers[i]? with
  | none => simp [hpc] at h
  | some pc =>
    cases hf : pc.fire cap n w with
    | none => simp [hpc, hf] at h
    | some out =>
      simp only [hpc, hf, Option.some.injEq] at h
      exact ⟨pc, out.1, out.2, rfl, hf, h.symm⟩

/-- A step of a worker keeps `ShardInv` and uses up fuel. -/
theorem ShardInv.shard_worker_step {bits cap workers n : Nat} {w w1 : ShardWorld} {i : Nat}
    (hinv : ShardInv workers n w) (h : shardStep bits cap n w (.worker i) = some w1) :
    ShardInv workers n w1 ∧ w1.fuel n < w.fuel n := by
  obtain ⟨pc, pc2, ch, hpc, hf, rfl⟩ := shardStep_worker h
  obtain ⟨h1, h2, h3, h4, h5, h6, h7, h8, h9⟩ := hinv
  have hmem : pc ∈ w.workers := List.mem_iff_getElem?.mpr ⟨i, hpc⟩
  have hok := h2 pc hmem
  have hsum := sum_map_set ShardPc.doneFlag w.workers i pc pc2 hpc
  have hrk := sum_map_set (ShardPc.rank n) w.workers i pc pc2 hpc
  have hrle := le_sum_map_of_getElem (ShardPc.rank n) w.workers i pc hpc
  have hall : ∀ q, q.ok n → ∀ x ∈ w.workers.set i q, x.ok n := by
    intro q hq x hx
    rcases List.mem_or_eq_of_mem_set hx with hx | rfl
    · exact h2 x hx
    · exact hq
  cases pc with
  | finished => simp [ShardPc.fire] at hf
  | counting j lc =>
    simp only [ShardPc.ok] at hok
    obtain ⟨hj1, hj2, hlc⟩ := hok
    simp only [ShardPc.fire] at hf
    split at hf
    · rename_i hjn
      simp only [Option.some.injEq, Prod.mk.injEq] at hf
      obtain ⟨rfl, rfl⟩ := hf
      simp only [ShardPc.doneFlag] at hsum
      simp only [ShardPc.rank] at hrk hrle
      have hq : (ShardPc.counting (j + 1) (j : Int)).ok n := by
        simp only [ShardPc.ok]
        refine ⟨by omega, by omega, ?_⟩
        push_cast
        ring
      refine ⟨⟨by simpa using h1, hall _ hq, h3, h4, ?_, h6, ?_, h8, h9⟩, ?_⟩
      · simp only [ShardWorld.doneCount] at h5 ⊢
        omega
      · intro hc
        have := h7 hc
        simp only [ShardWorld.doneCount] at this ⊢
        omega
      · simp only [ShardWorld.fuel]
        omega
    · rename_i hjn
      simp only [Option.some.injEq, Prod.mk.injEq] at hf
      obtain ⟨rfl, rfl⟩ := hf
      simp only [ShardPc.doneFlag] at hsum
      simp only [ShardPc.rank] at hrk hrle
      have hq : (ShardPc.sendResult lc).ok n := by
        simp only [ShardPc.ok]
        have : j = n + 1 := by omega
        subst this
        rw [hlc]
        push_cast
        ring
      refine ⟨⟨by simpa using h1, hall _ hq, h3, h4, ?_, h6, ?_, h8, h9⟩, ?_⟩
      · simp only [ShardWorld.doneCount] at h5 ⊢
        omega
      · intro hc
        have := h7 hc
        simp only [ShardWorld.doneCount] at this ⊢
        omega
      · simp only [ShardWorld.fuel]
        omega
  | sendResult lc =>
    simp only [ShardPc.ok] at hok
    simp only [ShardPc.fire] at hf
    split at hf
    · rename_i hg
      obtain ⟨hroom, hcl⟩ := hg
      simp only [Option.some.injEq, Prod.mk.injEq] at hf
      obtain ⟨rfl, rfl⟩ := hf
      simp only [ShardPc.doneFlag] at hsum
      simp only [ShardPc.rank] at hrk hrle
      have hmain : w.main = .waiting := by
        by_contra hne
        rw [h8 hne] at hcl
        cases hcl
      refine ⟨⟨by simpa using h1, hall _ (by simp [ShardPc.ok]), ?_, h4, ?_, h6, ?_, ?_, ?_⟩, ?_⟩
      · intro v hv
        rcases List.mem_append.mp hv with hv | hv
        · exact h3 v hv
        · simp only [List.mem_singleton] at hv
          rw [hv, hok]
      · simp only [ShardWorld.doneCount, List.length_append, List.length_singleton] at h5 ⊢
        omega
      · intro hc
        rw [hcl] at hc
        cases hc
      · intro hne
        exact absurd hmain hne
      · intro hd
        rw [hmain] at hd
        cases hd
      · simp only [ShardWorld.fuel, List.length_append, List.length_singleton]
        omega
    · cases hf

/-- Every move keeps `ShardInv` and uses up fuel. -/
theorem ShardInv.shard_after_step {bits cap workers n : Nat} {w w1 : ShardWorld}
    {a : ShardAct} (hb : 0 < bits) (hfit : (workers : Int) * n < 2 ^ (bits - 1))
    (hw : (workers : Int) < 2 ^ (bits - 1)) (hinv : ShardInv workers n w)
    (h : shardStep bits cap n w a = some w1) :
    ShardInv workers n w1 ∧ w1.fuel n < w.fuel n := by
  cases a with
  | worker i => exact hinv.shard_worker_step h
  | closeCh =>
    obtain ⟨h1, h2, h3, h4, h5, h6, h7, h8, h9⟩ := hinv
    simp only [shardStep] at h
    split at h
    · rename_i hg
      obtain ⟨hmain, hall⟩ := hg
      simp only [Option.some.injEq] at h
      subst h
      refine ⟨⟨h1, h2, h3, h4, h5, h6, ?_, fun _ => rfl, ?_⟩, ?_⟩
      · intro _
        simp only [ShardWorld.doneCount]
        rw [doneCount_of_all _ hall, h1]
      · intro hd
        cases hd
      · simp only [ShardWorld.fuel, hmain]
        omega
    · cases h
  | receive =>
    obtain ⟨h1, h2, h3, h4, h5, h6, h7, h8, h9⟩ := hinv
    simp only [shardStep] at h
    split at h
    · rename_i hmain
      cases hch : w.channel with
      | nil => simp [hch] at h
      | cons v rest =>
        simp only [hch, Option.some.injEq] at h
        subst h
        have hv : v = (n : Int) := h3 v (by rw [hch]; exact List.mem_cons_self _ _)
        have hdle := doneCount_le_length w.workers
        simp only [ShardWorld.doneCount, hch, List.length_cons] at h5
        have hrr : w.resultsReceived + 1 ≤ workers := by omega
        have hn0 : (0 : Int) ≤ n := by positivity
        have e2 : wrapInt bits (w.resultsReceived + 1) = w.resultsReceived + 1 :=
          wrapInt_of_fits bits _ hb (by omega) (by omega)
        have e1 : wrapInt bits (w.totalSum + v) = (w.resultsReceived + 1) * n := by
          have hval : w.totalSum + v = (w.resultsReceived + 1) * n := by
            rw [h6, hv]
            ring
          rw [hval]
          exact wrapInt_of_fits bits _ hb (by positivity) (by nlinarith)
        refine ⟨⟨h1, h2, ?_, ?_, ?_, ?_, h7, h8, ?_⟩, ?_⟩
        · intro x hx
          exact h3 x (by rw [hch]; exact List.mem_cons_of_mem _ hx)
        · show 0 ≤ wrapInt bits (w.resultsReceived + 1)
          rw [e2]
          omega
        · show ((rest.length : Nat) : Int) + wrapInt bits (w.resultsReceived + 1) = _
          rw [e2]
          simp only [ShardWorld.doneCount]
          omega
        · show wrapInt bits (w.totalSum + v) = wrapInt bits (w.resultsReceived + 1) * n
          rw [e1, e2]
        · intro hd
          rw [hmain] at hd
          cases hd
        · simp only [ShardWorld.fuel, hch, List.length_cons]
          omega
    · cases h
  | endRange =>
    obtain ⟨h1, h2, h3, h4, h5, h6, h7, h8, h9⟩ := hinv
    simp only [shardStep] at h
    split at h
    · rename_i hg
      obtain ⟨hmain, hch, hcl⟩ := hg
      simp only [Option.some.injEq] at h
      subst h
      refine ⟨⟨h1, h2, h3, h4, h5, h6, h7, fun _ => hcl, fun _ => hch⟩, ?_⟩
      simp only [ShardWorld.fuel, hmain]
      omega
    · cases h

theorem ShardInv.shard_run {bits cap workers n : Nat} (hb : 0 < bits)
    (hfit : (workers : Int) * n < 2 ^ (bits - 1)) (hw : (workers : Int) < 2 ^ (bits - 1))
    (sched : List ShardAct) :
    ∀ w : ShardWorld, ShardInv workers n w → ShardInv workers n (shardRun bits cap n w sched) := by
  induction sched with
  | nil => intro w h; exact h
  | cons a rest ih =>
    intro w h
    simp only [shardRun]
    cases hs : shardStep bits cap n w a with
    | none => exact ih w h
    | some w1 => exact ih w1 (h.shard_after_step hb hfit hw hs).1

/-- When the aggregation loop has ended, every worker's result has been received and summed. -/
theorem ShardInv.shard_result {workers n : Nat} {w : ShardWorld} (hinv : ShardInv workers n w)
    (h : w.main = .finishedLoop) :
    w.resultsReceived = workers ∧ w.totalSum = (workers : Int) * n := by
  obtain ⟨-, -, -, -, h5, h6, h7, h8, h9⟩ := hinv
  have hcl : w.closed = true := h8 (by rw [h]; simp)
  have hd := h7 hcl
  have hch := h9 h
  rw [hch, hd] at h5
  simp only [List.length_nil, Nat.cast_zero, zero_add] at h5
  exact ⟨h5, by rw [h6, h5]⟩

/-- No deadlock: the buffer has room for every worker's send, so until the aggregation loop
has ended some move is possible. -/
theorem ShardInv.shard_progress {workers n : Nat} {w : ShardWorld} (bits cap : Nat)
    (hcap : workers ≤ cap) (hinv : ShardInv workers n w) (h : w.main ≠ .finishedLoop) :
    ∃ a, (shardStep bits cap n w a).isSome = true := by
  obtain ⟨h1, h2, h3, h4, h5, h6, h7, h8, h9⟩ := hinv
  cases hmain : w.main with
  | finishedLoop => exact absurd hmain h
  | ranging =>
    have hcl : w.closed = true := h8 (by rw [hmain]; simp)
    cases hch : w.channel with
    | nil => exact ⟨.endRange, by simp [shardStep, hmain, hch, hcl]⟩
    | cons v rest => exact ⟨.receive, by simp [shardStep, hmain, hch]⟩
  | waiting =>
    by_cases hall : w.workers.all ShardPc.isFinished = true
    · exact ⟨.closeCh, by simp only [shardStep, hmain, hall, and_self, if_true, Option.isSome]⟩
    · obtain ⟨i, pc, hi, hpc⟩ := exists_unfinished _ hall
      refine ⟨.worker i, ?_⟩
      cases pc with
      | finished => simp [ShardPc.isFinished] at hpc
      | counting j lc =>
        by_cases hj : j ≤ n <;> simp [shardStep, hi, ShardPc.fire, hj]
      | sendResult lc =>
        have hlt := doneCount_lt_of_unfinished w.workers i _ hi rfl
        have hcl : w.closed = false := by
          cases hc : w.closed with
          | false => rfl
          | true =>
            have := h7 hc
            simp only [ShardWorld.doneCount] at this
            omega
        have hroom : w.channel.length < cap := by
          simp only [ShardWorld.doneCount] at h5
          omega
        simp [shardStep, hi, ShardPc.fire, hroom, hcl]

/-- Every state satisfying the invariant can be driven to the end of the aggregation loop. -/
theorem ShardInv.shard_complete {bits cap workers n : Nat} (hb : 0 < bits)
    (hfit : (workers : Int) * n < 2 ^ (bits - 1)) (hw : (workers : Int) < 2 ^ (bits - 1))
    (hcap : workers ≤ cap) (k : Nat) :
    ∀ w : ShardWorld, w.fuel n ≤ k → ShardInv workers n w →
      ∃ more, (shardRun bits cap n w more).main = .finishedLoop := by
  induction k with
  | zero =>
    intro w hfuel hinv
    by_cases hm : w.main = .finishedLoop
    · exact ⟨[], hm⟩
    · obtain ⟨a, ha⟩ := hinv.shard_progress bits cap hcap hm
      obtain ⟨w1, hw1⟩ := Option.isSome_iff_exists.mp ha
      have := (hinv.shard_after_step hb hfit hw hw1).2
      omega
  | succ k ih =>
    intro w hfuel hinv
    by_cases hm : w.main = .finishedLoop
    · exact ⟨[], hm⟩
    · obtain ⟨a, ha⟩ := hinv.shard_progress bits cap hcap hm
      obtain ⟨w1, hw1⟩ := Option.isSome_iff_exists.mp ha
      obtain ⟨hinv1, hlt⟩ := hinv.shard_after_step hb hfit hw hw1
      obtain ⟨more, hmore⟩ := ih w1 (by omega) hinv1
      exact ⟨a :: more, by simpa [shardRun, hw1] using hmore⟩

/-- No send blocks: a worker at its send always finds room in a buffer that holds one value
per worker, and the channel still open. -/
theorem ShardInv.shard_send_free {workers n : Nat} {w : ShardWorld} (bits cap : Nat)
    (hcap : workers ≤ cap) (hinv : ShardInv workers n w) {i : Nat} {localCounter : Int}
    (hi : w.workers[i]? = some (.sendResult localCounter)) :
    (shardStep bits cap n w (.worker i)).isSome = true := by
  obtain ⟨h1, -, -, h4, h5, -, h7, -, -⟩ := hinv
  have hlt := doneCount_lt_of_unfinished w.workers i _ hi rfl
  have hcl : w.closed = false := by
    cases hc : w.closed with
    | false => rfl
    | true =>
      have := h7 hc
      simp only [ShardWorld.doneCount] at this
      omega
  have hroom : w.channel.length < cap := by
    simp only [ShardWorld.doneCount] at h5
    omega
  simp [shardStep, hi, ShardPc.fire, hroom, hcl]

/-- A complete run of the shard-and-aggregate counter with 2 workers counting to 1 and a
channel of capacity 2: the second worker's result arrives first; the loop receives 2 results
and sums them to 2. -/
theorem shardRun_small_complete :
    (shardRun 64 2 1 (shardStart 2)
      [.worker 1, .worker 0, .worker 1, .worker 1, .closeCh, .receive, .worker 0, .worker 0,
        .receive, .closeCh, .receive, .receive, .receive, .endRange]).main = .finishedLoop ∧
    (shardRun 64 2 1 (shardStart 2)
      [.worker 1, .worker 0, .worker 1, .worker 1, .closeCh, .receive, .worker 0, .worker 0,
        .receive, .closeCh, .receive, .receive, .receive, .endRange]).totalSum = 2 ∧
    (shardRun 64 2 1 (shardStart 2)
      [.worker 1, .worker 0, .worker 1, .worker 1, .closeCh, .receive, .worker 0, .worker 0,
        .receive, .closeCh, .receive, .receive, .receive, .endRange]).resultsReceived = 2 := by
  decide

/-- C12: the shard-and-aggregate counter on either width of Go's `int`, under every
interleaving `sched` of the 5 workers, the buffered channel and the aggregation loop: a worker
reaches its send with local counter 10,000,000 and the send does not block; every buffered
value is 10,000,000; each
returned worker's result is in the buffer or has been received, once; `totalSum` is 10,000,000
per received result; when the loop has ended exactly 5 results have been received and the
total is exactly 50,000,000, whatever the order in which the results arrived. Until the loop
has ended some move is possible (no send blocks on the buffer of 5), every move uses up fuel,
and the interleaving can be continued to the end of the loop with 5 results and total
50,000,000. -/
theorem C12_shard_and_aggregate_exact (bits : Nat) (hbits : bits = 32 ∨ bits = 64)
    (sched : List ShardAct) :
    (∀ (i : Nat) (localCounter : Int),
      (exemploConcorrenciaInteligente bits sched).workers[i]? = some (.sendResult localCounter) →
        localCounter = 10000000 ∧
        (shardStep bits 5 10000000 (exemploConcorrenciaInteligente bits sched) (.worker i)).isSome
          = true) ∧
    (∀ v ∈ (exemploConcorrenciaInteligente bits sched).channel, v = 10000000) ∧
    ((exemploConcorrenciaInteligente bits sched).channel.length : Int) + (exemploConcorrenciaInteligente bits sched).resultsReceived
      = (exemploConcorrenciaInteligente bits sched).doneCount ∧
    (exemploConcorrenciaInteligente bits sched).totalSum = (exemploConcorrenciaInteligente bits sched).resultsReceived * 10000000 ∧
    ((exemploConcorrenciaInteligente bits sched).main = .finishedLoop →
      (exemploConcorrenciaInteligente bits sched).resultsReceived = 5 ∧ (exemploConcorrenciaInteligente bits sched).totalSum = 50000000) ∧
    ((exemploConcorrenciaInteligente bits sched).main ≠ .finishedLoop →
      ∃ a, (shardStep bits 5 10000000 (exemploConcorrenciaInteligente bits sched) a).isSome = true) ∧
    (∀ (a : ShardAct) (w1 : ShardWorld),
      shardStep bits 5 10000000 (exemploConcorrenciaInteligente bits sched) a = some w1 →
        w1.fuel 10000000 < (exemploConcorrenciaInteligente bits sched).fuel 10000000) ∧
    (∃ more,
      (shardRun bits 5 10000000 (exemploConcorrenciaInteligente bits sched) more).main = .finishedLoop ∧
      (shardRun bits 5 10000000 (exemploConcorrenciaInteligente bits sched) more).resultsReceived = 5 ∧
      (shardRun bits 5 10000000 (exemploConcorrenciaInteligente bits sched) more).totalSum = 50000000) := by
  have hb : 0 < bits := by rcases hbits with rfl | rfl <;> norm_num
  have hfit : ((5 : Nat) : Int) * (10000000 : Nat) < 2 ^ (bits - 1) := by
    rcases hbits with rfl | rfl
    · exact fits_32 _ (by norm_num)
    · exact fits_64 _ (by norm_num)
  have hw : ((5 : Nat) : Int) < 2 ^ (bits - 1) := by
    rcases hbits with rfl | rfl
    · exact fits_32 _ (by norm_num)
    · exact fits_64 _ (by norm_num)
  have hinv : ShardInv 5 10000000 (exemploConcorrenciaInteligente bits sched) :=
    ShardInv.shard_run hb hfit hw sched _ (ShardInv.shard_start 5 10000000)
  have hres : ∀ w : ShardWorld, ShardInv 5 10000000 w → w.main = .finishedLoop →
      w.resultsReceived = 5 ∧ w.totalSum = 50000000 := by
    intro w hi hm
    obtain ⟨r1, r2⟩ := hi.shard_result hm
    refine ⟨by simpa using r1, ?_⟩
    rw [r2]
    norm_num
  obtain ⟨-, h2, h3, -, h5, h6, -, -, -⟩ := id hinv
  refine ⟨?_, ?_, h5, ?_, hres _ hinv, fun hm => hinv.shard_progress bits 5 (le_refl _) hm,
    fun a w1 h => (hinv.shard_after_step hb hfit hw h).2, ?_⟩
  · intro i localCounter hi
    have := h2 _ (List.mem_iff_getElem?.mpr ⟨i, hi⟩)
    exact ⟨by simpa [ShardPc.ok] using this, hinv.shard_send_free bits 5 (le_refl _) hi⟩
  · intro v hv
    simpa using h3 v hv
  · simpa using h6
  · obtain ⟨more, hmore⟩ :=
      ShardInv.shard_complete hb hfit hw (le_refl 5) _ _ (le_refl _) hinv
    have hinv2 : ShardInv 5 10000000
        (shardRun bits 5 10000000 (exemploConcorrenciaInteligente bits sched) more) :=
      ShardInv.shard_run hb hfit hw more _ hinv
    exact ⟨more, hmore, hres _ hinv2 hmore⟩

theorem C12_shard_and_aggregate_exact_witness :
    ((64 = 32 ∨ 64 = 64) ∧
      (exemploConcorrenciaInteligente 64 [.worker 2, .worker 0, .worker 2]).workers
        = [.counting 2 1, .counting 1 0, .counting 3 2, .counting 1 0, .counting 1 0]) ∧
    ((∀ (i : Nat) (localCounter : Int),
      (exemploConcorrenciaInteligente 64 [.worker 2, .worker 0, .worker 2]).workers[i]? = some (.sendResult localCounter) →
        localCounter = 10000000 ∧
        (shardStep 64 5 10000000 (exemploConcorrenciaInteligente 64 [.worker 2, .worker 0, .worker 2]) (.worker i)).isSome
          = true) ∧
    (∀ v ∈ (exemploConcorrenciaInteligente 64 [.worker 2, .worker 0, .worker 2]).channel, v = 10000000) ∧
    ((exemploConcorrenciaInteligente 64 [.worker 2, .worker 0, .worker 2]).channel.length : Int) + (exemploConcorrenciaInteligente 64 [.worker 2, .worker 0, .worker 2]).resultsReceived
      = (exemploConcorrenciaInteligente 64 [.worker 2, .worker 0, .worker 2]).doneCount ∧
    (exemploConcorrenciaInteligente 64 [.worker 2, .worker 0, .worker 2]).totalSum = (exemploConcorrenciaInteligente 64 [.worker 2, .worker 0, .worker 2]).resultsReceived * 10000000 ∧
    ((exemploConcorrenciaInteligente 64 [.worker 2, .worker 0, .worker 2]).main = .finishedLoop →
      (exemploConcorrenciaInteligente 64 [.worker 2, .worker 0, .worker 2]).resultsReceived = 5 ∧ (exemploConcorrenciaInteligente 64 [.worker 2, .worker 0, .worker 2]).totalSum = 50000000) ∧
    ((exemploConcorrenciaInteligente 64 [.worker 2, .worker 0, .worker 2]).main ≠ .finishedLoop →
      ∃ a, (shardStep 64 5 10000000 (exemploConcorrenciaInteligente 64 [.worker 2, .worker 0, .worker 2]) a).isSome = true) ∧
    (∀ (a : ShardAct) (w1 : ShardWorld),
      shardStep 64 5 10000000 (exemploConcorrenciaInteligente 64 [.worker 2, .worker 0, .worker 2]) a = some w1 →
        w1.fuel 10000000 < (exemploConcorrenciaInteligente 64 [.worker 2, .worker 0, .worker 2]).fuel 10000000) ∧
    (∃ more,
      (shardRun 64 5 10000000 (exemploConcorrenciaInteligente 64 [.worker 2, .worker 0, .worker 2]) more).main = .finishedLoop ∧
      (shardRun 64 5 10000000 (exemploConcorrenciaInteligente 64 [.worker 2, .worker 0, .worker 2]) more).resultsReceived = 5 ∧
      (shardRun 64 5 10000000 (exemploConcorrenciaInteligente 64 [.worker 2, .worker 0, .worker 2]) more).totalSum = 50000000)) :=
  ⟨⟨by decide, by decide⟩,
    C12_shard_and_aggregate_exact 64 (by decide) [.worker 2, .worker 0, .worker 2]⟩

end Patterns
